import Mathlib

/-!
A verification development for the `docs-tree-ai` incremental hierarchical
summarization engine (Rust).  The Rust modules `hasher.rs`, `cache.rs`,
`scanner.rs`, `summarizer.rs` and `readme_validator.rs` are shallowly embedded
below: Rust `String`s are modelled as `List Char`, filesystem paths as lists of
path components, fallible operations as `Except`/`Option` values, and the
external collaborators (filesystem reads, the language-model service) as
explicit oracle functions supplied through an `Env` record.

The SHA-256 digest primitive comes from the external `sha2` crate, outside the
repository; following the specification ("stream the bytes through a
cryptographic hash", "collision-free in practice"), it is modelled as an
abstract digest function `hash : Str → Str`, and the theorems that depend on
collision-freeness state it as an explicit injectivity hypothesis.  Everything
built on top of the digest (`compute_content_hash`, `compute_directory_hash`,
the Merkle scheme, the cache keying) is translated from the repository source.
-/
/-- Rust `String`s / `str` slices are modelled as lists of characters. -/
abbrev Str := List Char

/-- Shorthand turning a Lean string literal into the `Str` model. -/
def str (s : String) : Str := s.data

/-- Filesystem paths, modelled as their list of components. -/
abbrev FPath := List Str

/-! ## hasher.rs -/
/-- Model of `FileHasher::compute_content_hash` (hasher.rs): digest of a string's bytes.
The digest primitive itself is the abstract parameter `hash`. -/
def compute_content_hash (hash : Str → Str) (content : Str) : Str :=
  hash content

/-- Model of `FileHasher::compute_directory_hash` (hasher.rs): join the children's
digests with the `"|"` delimiter, then digest the joined string. -/
def compute_directory_hash (hash : Str → Str) (children_hashes : List Str) : Str :=
  compute_content_hash hash (List.intercalate (str "|") children_hashes)

/-! ### A concrete digest function used to instantiate witnesses

`hexEncode` writes every character as six lowercase hex digits, so it is
injective and its output never contains the `'|'` delimiter.  It stands in for
the (idealised, collision-free) SHA-256 primitive in concrete evaluations. -/
/-- One lowercase hexadecimal digit. -/
def hexDigit (n : Nat) : Char :=
  Char.ofNat (if n < 10 then 48 + n else 87 + n)

/-- A character's code rendered as eight hex digits (codes are below `16^8`). -/
def encChar (c : Char) : Str :=
  [hexDigit (c.toNat / 268435456 % 16), hexDigit (c.toNat / 16777216 % 16),
   hexDigit (c.toNat / 1048576 % 16), hexDigit (c.toNat / 65536 % 16),
   hexDigit (c.toNat / 4096 % 16), hexDigit (c.toNat / 256 % 16),
   hexDigit (c.toNat / 16 % 16), hexDigit (c.toNat % 16)]

/-- The concrete stand-in digest function. -/
def hexEncode (s : Str) : Str := s.flatMap encChar

/-! ## scanner.rs : `FileNode` and the source-file test -/
/-- Model of `FileNode` (scanner.rs): a node of the scanned tree. -/
structure FileNode where
  path : FPath
  is_directory : Bool
  children : List FileNode
  content_hash : Option Str
  summary : Option Str

/-- Rust `Path::extension()`: the portion of the file name after the final
`'.'`, unless there is no `'.'` or the name begins with its only `'.'`. -/
def rustExtension (name : Str) : Option Str :=
  let rev := name.reverse
  let ext := rev.takeWhile (fun c => !(c == '.'))
  match rev.dropWhile (fun c => !(c == '.')) with
  | [] => none
  | [_] => none
  | _ => some ext.reverse

/-- Rust `str::to_lowercase`, restricted to the per-character mapping. -/
def toLowerStr (s : Str) : Str := s.map Char.toLower

/-- The fixed whitelist of `FileNode::is_source_code_file` (scanner.rs). -/
def sourceExts : List Str :=
  [str "rs", str "py", str "js", str "ts", str "tsx", str "jsx", str "go",
   str "java", str "cpp", str "c", str "h", str "hpp", str "cs", str "php",
   str "rb", str "swift", str "kt", str "scala", str "clj", str "hs",
   str "elm", str "dart", str "r", str "jl", str "ml", str "fs", str "pl",
   str "sh", str "bash", str "zsh", str "fish", str "ps1", str "html",
   str "css", str "scss", str "sass", str "less", str "vue", str "svelte",
   str "xml", str "yaml", str "yml", str "json", str "toml", str "ini",
   str "cfg", str "conf", str "dockerfile", str "makefile", str "cmake",
   str "sql", str "graphql", str "proto", str "thrift", str "avro", str "md",
   str "mdx", str "tex", str "rst"]

/-- Model of `FileNode::is_source_code_file` (scanner.rs): directories are never source
files; otherwise the lowercased path extension must be in the whitelist (a
missing extension reads as `""`, which is not whitelisted). -/
def is_source_code_file (n : FileNode) : Bool :=
  if n.is_directory then false
  else
    let ext := (n.path.getLast?.bind rustExtension).getD []
    sourceExts.contains (toLowerStr ext)

/-! ## cache.rs : the content-addressed summary store -/
/-- Model of `CacheSummary` (cache.rs): one durable cache record. -/
structure CacheSummary where
  source_path : FPath
  content_hash : Str
  summary : Str
  timestamp : Nat
  is_directory : Bool
deriving Repr, DecidableEq

/-- The per-node store, keyed by the node's path.  The real store keeps one
JSON file per node at a cache path derived injectively from the node's path;
the key set is modelled by the node paths themselves. -/
abbrev Cache := List (FPath × CacheSummary)

/-- Model of `CacheManager::get_cached_summary` (cache.rs): return the stored summary
only when an entry exists for the node and its stored fingerprint equals the
current one; a missing entry or a fingerprint mismatch is a miss. -/
def get_cached_summary (c : Cache) (source_path : FPath) (content_hash : Str) :
    Option Str :=
  match List.lookup source_path c with
  | none => none
  | some entry =>
    if entry.content_hash == content_hash then some entry.summary else none

/-- Model of `CacheManager::store_summary` (cache.rs): persist (overwrite) the entry for
the node.  `timestamp` and `is_directory` are supplied by the caller's
environment (the source reads the clock and the filesystem for them). -/
def store_summary (c : Cache) (source_path : FPath) (content_hash : Str)
    (summary : Str) (timestamp : Nat) (is_directory : Bool) : Cache :=
  (source_path,
    { source_path := source_path, content_hash := content_hash,
      summary := summary, timestamp := timestamp,
      is_directory := is_directory }) ::
    c.filter (fun e => !(e.1 == source_path))

/-- Model of `CacheManager::get_cache_summary` (cache.rs): read a node's entry
regardless of fingerprint. -/
def get_cache_summary (c : Cache) (source_path : FPath) : Option CacheSummary :=
  List.lookup source_path c

/-- Model of `CacheManager::get_all_summaries` (cache.rs): every parseable entry. -/
def get_all_summaries (c : Cache) : List CacheSummary := c.map (·.2)

/-! ## summarizer.rs : the bottom-up tree summarizer

External effects are supplied by an `Env` oracle:
`hashFile p` is the outcome of `FileHasher::compute_file_hash` for path `p`
(`none` models an I/O error opening/reading the file), `readFile p` the outcome
of `fs::read_to_string`, and `genFile`/`genDir` the outcome of the language
model client's `generate_file_summary`/`generate_directory_summary` after its
internal retry loop (`none` models failure after exhausting retries).

`DErr` carries the `DocTreeError` variants the summarizer itself can
propagate. -/
inductive DErr where
  | io
  | path
  | summarizer
deriving Repr, DecidableEq

/-- The external effect oracle for one run. -/
structure Env where
  hashFile : FPath → Option Str
  readFile : FPath → Option Str
  genFile : FPath → Str → Option Str
  genDir : Str → List Str → Option Str
  now : Nat

/-- Model of `FileNode::get_relative_path` (scanner.rs), via `pathdiff::diff_paths`:
inside a scan every node path extends the base path, and the relative path is
the remainder; a node path outside the base is a `Path` error. -/
def get_relative_path (base p : FPath) : Except DErr FPath :=
  if base.isPrefixOf p then .ok (p.drop base.length) else .error .path

/-- Rust's `content.trim().is_empty()`. -/
def isBlank (s : Str) : Bool := s.all Char.isWhitespace

/-- Model of `Path::file_name()` with an `unwrap_or` default, as used in
summarizer.rs. -/
def fileNameOr (dflt : Str) (p : FPath) : Str := p.getLast?.getD dflt

/-- Model of `HierarchicalSummarizer::summarize_file` (summarizer.rs):
skip non-source files; compute the fingerprint (an I/O failure here
propagates); consult the cache unless forcing; read the content (empty or
unreadable content skips the node); ask the service; on success adopt and
store, on failure leave the node without a summary. -/
def summarize_file (env : Env) (force : Bool) (base : FPath)
    (node : FileNode) (cache : Cache) : Except DErr (FileNode × Cache) :=
  if !is_source_code_file node then .ok (node, cache)
  else
    match env.hashFile node.path with
    | none => .error .io
    | some content_hash =>
      let node1 := { node with content_hash := some content_hash }
      match if force then none
            else get_cached_summary cache node.path content_hash with
      | some cached => .ok ({ node1 with summary := some cached }, cache)
      | none =>
        match env.readFile node.path with
        | none => .ok (node1, cache)
        | some content =>
          if isBlank content then .ok (node1, cache)
          else
            match get_relative_path base node.path with
            | .error e => .error e
            | .ok relative_path =>
              match env.genFile relative_path content with
              | some s =>
                .ok ({ node1 with summary := some s },
                  store_summary cache node.path content_hash s env.now false)
              | none => .ok (node1, cache)

/-- The child-summary collection loop of
`HierarchicalSummarizer::summarize_directory` (summarizer.rs, lines 128-146):
each child that produced a summary is formatted with its name and a
directory/file marker; computing a child's relative path can fail and
propagates. -/
def collectChildSummaries (base : FPath) :
    List FileNode → Except DErr (List Str)
  | [] => .ok []
  | child :: rest =>
    match child.summary with
    | none => collectChildSummaries base rest
    | some s =>
      match get_relative_path base child.path with
      | .error e => .error e
      | .ok rel =>
        let child_name := fileNameOr (str "unknown") rel
        let formatted :=
          if child.is_directory then
            str "**" ++ child_name ++ str "/** (directory): " ++ s
          else
            str "**" ++ child_name ++ str "**: " ++ s
        match collectChildSummaries base rest with
        | .error e => .error e
        | .ok tail => .ok (formatted :: tail)

/-- Model of `HierarchicalSummarizer::summarize_directory` (summarizer.rs): collect the
children's formatted summaries (no summarizable content skips the directory
without a fingerprint); fingerprint the ordered children's fingerprints;
consult the cache unless forcing; ask the service; on success adopt and store,
on failure adopt the deterministic concatenation fallback without storing. -/
def summarize_directory (hash : Str → Str) (env : Env) (force : Bool)
    (base : FPath) (node : FileNode) (cache : Cache) :
    Except DErr (FileNode × Cache) :=
  match get_relative_path base node.path with
  | .error e => .error e
  | .ok relative_path =>
    match collectChildSummaries base node.children with
    | .error e => .error e
    | .ok children_summaries =>
      if children_summaries.isEmpty then .ok (node, cache)
      else
        let children_hashes := node.children.filterMap (·.content_hash)
        let directory_hash := compute_directory_hash hash children_hashes
        let node1 := { node with content_hash := some directory_hash }
        match if force then none
              else get_cached_summary cache node.path directory_hash with
        | some cached => .ok ({ node1 with summary := some cached }, cache)
        | none =>
          let directory_name := fileNameOr (str "project root") relative_path
          match env.genDir directory_name children_summaries with
          | some s =>
            .ok ({ node1 with summary := some s },
              store_summary cache node.path directory_hash s env.now true)
          | none =>
            .ok ({ node1 with
                summary := some (str "Contains: " ++
                  List.intercalate (str ", ") children_summaries) }, cache)

mutual
/-- Model of `HierarchicalSummarizer::summarize_tree` (summarizer.rs): post-order —
process all children first, then the directory itself; files go to
`summarize_file`. -/
def summarize_tree (hash : Str → Str) (env : Env) (force : Bool)
    (base : FPath) : FileNode → Cache → Except DErr (FileNode × Cache)
  | ⟨path, is_dir, children, chash, summ⟩, cache =>
    if is_dir then
      match summarize_children hash env force base children cache with
      | .error e => .error e
      | .ok (children1, cache1) =>
        summarize_directory hash env force base
          ⟨path, is_dir, children1, chash, summ⟩ cache1
    else summarize_file env force base ⟨path, is_dir, children, chash, summ⟩ cache

/-- The `for child in &mut node.children` recursion of `summarize_tree`,
threading the cache left to right and stopping at the first error. -/
def summarize_children (hash : Str → Str) (env : Env) (force : Bool)
    (base : FPath) : List FileNode → Cache → Except DErr (List FileNode × Cache)
  | [], cache => .ok ([], cache)
  | n :: rest, cache =>
    match summarize_tree hash env force base n cache with
    | .error e => .error e
    | .ok (n1, cache1) =>
      match summarize_children hash env force base rest cache1 with
      | .error e => .error e
      | .ok (rest1, cache2) => .ok (n1 :: rest1, cache2)
end

/-- Model of `HierarchicalSummarizer::generate_project_summary` (summarizer.rs): the
scan is performed by the external scanner (the tree is an input here); run the
bottom-up walk and return the root summary, or a `Summarizer` error when the
root ends the walk without one. -/
def generate_project_summary (hash : Str → Str) (env : Env) (force : Bool)
    (base : FPath) (root : FileNode) (cache : Cache) : Except DErr Str :=
  match summarize_tree hash env force base root cache with
  | .error e => .error e
  | .ok (root1, _) =>
    match root1.summary with
    | some s => .ok s
    | none => .error .summarizer

/-! ## readme_validator.rs and the cache's mapping store -/
/-- Model of `ReadmeLineMapping` (cache.rs). -/
structure ReadmeLineMapping where
  line_number : Nat
  line_content : Str
  cache_keys : List FPath
  last_validated_hash : Option Str
deriving Repr, DecidableEq

/-- Model of `ReadmeMappingData` (cache.rs). -/
structure ReadmeMappingData where
  version : Str
  readme_hash : Str
  mappings : List ReadmeLineMapping
deriving Repr, DecidableEq

/-- Model of `ReadmeMappingData::default` (cache.rs). -/
def ReadmeMappingData.dflt : ReadmeMappingData :=
  { version := str "1.0.0", readme_hash := [], mappings := [] }

/-- Model of `CacheManager::validate_readme_hash` (cache.rs). -/
def validate_readme_hash (md : ReadmeMappingData) (current_hash : Str) : Bool :=
  md.readme_hash == current_hash

/-- Model of `ValidationResult` (readme_validator.rs). -/
structure ValidationResult where
  line_number : Nat
  current_content : Str
  suggested_content : Str
  reason : Str
  affected_cache_entries : List FPath
deriving Repr, DecidableEq

/-- Rust `str::contains` (substring test): some tail of the haystack starts
with the needle. -/
def strContains (hay needle : Str) : Bool :=
  hay.tails.any (fun t => needle.isPrefixOf t)

/-- Rust `str::trim`. -/
def trimStr (s : Str) : Str :=
  ((s.dropWhile Char.isWhitespace).reverse.dropWhile Char.isWhitespace).reverse

/-- Rust `str::split_whitespace`: maximal non-whitespace runs. -/
def splitWhitespace (s : Str) : List Str :=
  (List.splitOnP Char.isWhitespace s).filter (fun w => !w.isEmpty)

/-- Strip one trailing carriage return. -/
def stripCR (l : Str) : Str :=
  if l.getLast? == some '\r' then l.dropLast else l

/-- Rust `str::lines`: split at `'\n'`, dropping one `'\r'` before each line
ending and the optional final line ending. -/
def rustLines (s : Str) : List Str :=
  if s.isEmpty then []
  else
    let parts := List.splitOnP (fun c => c == '\n') s
    if s.getLast? == some '\n' then (parts.dropLast).map stripCR
    else (parts.dropLast.map stripCR) ++ [parts.getLast?.getD []]

/-- Rust `Path::file_stem()` on a file name: the part before the extension. -/
def rustStem (name : Str) : Str :=
  match rustExtension name with
  | none => name
  | some e => name.take (name.length - (e.length + 1))

/-- Model of `ReadmeValidator::is_content_line` (readme_validator.rs). -/
def is_content_line (line : Str) : Bool :=
  let trimmed := trimStr line
  !trimmed.isEmpty
    && !((str "#").isPrefixOf trimmed)
    && !((str "```").isPrefixOf trimmed)
    && !((str "---").isPrefixOf trimmed)
    && !((str "***").isPrefixOf trimmed)
    && !((str "___").isPrefixOf trimmed)
    && (strContains trimmed (str "module")
      || strContains trimmed (str "function")
      || strContains trimmed (str "class")
      || strContains trimmed (str "component")
      || strContains trimmed (str "file")
      || strContains trimmed (str "directory")
      || strContains trimmed (str "API")
      || strContains trimmed (str "endpoint")
      || strContains trimmed (str "service")
      || strContains trimmed (str "manager")
      || strContains trimmed (str "handler")
      || strContains trimmed (str "validator")
      || strContains trimmed (str "scanner")
      || strContains trimmed (str "client")
      || strContains trimmed (str "cache")
      || strContains trimmed (str "config")
      || strContains trimmed (str "error")
      || strContains trimmed (str "test")
      || strContains trimmed (str "util")
      || strContains trimmed (str "lib")
      || strContains trimmed (str "src/")
      || strContains trimmed (str ".rs")
      || strContains trimmed (str ".py")
      || strContains trimmed (str ".js")
      || strContains trimmed (str ".ts")
      || strContains trimmed (str ".go")
      || strContains trimmed (str ".java")
      || strContains trimmed (str ".cpp")
      || strContains trimmed (str ".c")
      || strContains trimmed (str ".h"))

/-- One iteration of the `for summary in get_all_summaries` loop of
`ReadmeValidator::find_relevant_cache_keys` (readme_validator.rs). -/
def relevantStep (line_lower : Str) (base : FPath) (acc : List FPath)
    (s : CacheSummary) : List FPath :=
  let rel := if base.isPrefixOf s.source_path then s.source_path.drop base.length
             else s.source_path
  let path_str := toLowerStr (List.intercalate (str "/") rel)
  let file_name := toLowerStr ((rel.getLast?).getD [])
  let file_stem := toLowerStr (rustStem ((rel.getLast?).getD []))
  let key := s.source_path
  let acc1 :=
    if (strContains line_lower path_str || strContains line_lower file_name
        || (decide (file_stem.length > 3) && strContains line_lower file_stem))
        && !(acc.contains key) then
      acc ++ [key]
    else acc
  let summary_keywords :=
    ((splitWhitespace s.summary).filter (fun w => decide (w.length > 5))).take 5
  let matching_keywords :=
    (summary_keywords.filter
      (fun k => strContains line_lower (toLowerStr k))).length
  if decide (matching_keywords ≥ 2) && !(acc1.contains key) then acc1 ++ [key]
  else acc1

/-- Model of `ReadmeValidator::find_relevant_cache_keys` (readme_validator.rs). -/
def find_relevant_cache_keys (line : Str) (base : FPath) (c : Cache) :
    List FPath :=
  (get_all_summaries c).foldl (relevantStep (toLowerStr line) base) []

/-- Model of `ReadmeValidator::generate_mappings` (readme_validator.rs): one mapping per
content-bearing line with at least one relevant cache key; no validated
fingerprint yet. -/
def generate_mappings (readme_content : Str) (base : FPath) (c : Cache) :
    List ReadmeLineMapping :=
  (rustLines readme_content).enum.filterMap fun p =>
    if is_content_line p.2 then
      let cache_keys := find_relevant_cache_keys p.2 base c
      if cache_keys.isEmpty then none
      else some { line_number := p.1 + 1, line_content := p.2,
                  cache_keys := cache_keys, last_validated_hash := none }
    else none

/-- The per-mapping re-examination test of `ReadmeValidator::validate_readme`
(readme_validator.rs, lines 71-79): some cache key's current fingerprint
differs from the mapping's recorded fingerprint, a missing entry counting as
"needs examination". -/
def validation_needed (c : Cache) (m : ReadmeLineMapping) : Bool :=
  m.cache_keys.any fun key =>
    match get_cache_summary c key with
    | some s => !(m.last_validated_hash == some s.content_hash)
    | none => true

/-- Decimal rendering of a line number, for the prompt text. -/
def natToStr (n : Nat) : Str := (Nat.repr n).data

/-- Model of `ReadmeValidator::suggest_update` (readme_validator.rs).  `renv` is the
language-model client's `generate_readme_suggestion` after its retry loop
(`none` models failure after exhausting retries, which propagates as the
summarizer-flavoured error `generate_completion` produces). -/
def suggest_update (renv : Str → Option Str) (c : Cache)
    (project_summary : Str) (m : ReadmeLineMapping) :
    Except DErr (Option ValidationResult) :=
  let relevant_summaries := m.cache_keys.filterMap fun key =>
    (get_cache_summary c key).map fun e =>
      fileNameOr (str "unknown") e.source_path ++ str ": " ++ e.summary
  if relevant_summaries.isEmpty then .ok none
  else
    let combined_summaries := List.intercalate (str "\n") relevant_summaries
    let prompt :=
      str "The following line in README.md may be outdated:\n\nLine "
        ++ natToStr m.line_number ++ str ": \"" ++ m.line_content
        ++ str "\"\n\nCurrent code summaries:\n" ++ combined_summaries
        ++ str "\n\nProject context:\n" ++ project_summary
        ++ str "\n\nIf this line needs updating based on the current code, provide a corrected version. If the line is still accurate, respond with \x27NO_CHANGE\x27. Only provide the updated line text, nothing else."
    match renv prompt with
    | none => .error .summarizer
    | some response =>
      let r := trimStr response
      if !(r == str "NO_CHANGE") && !(r == m.line_content) then
        .ok (some { line_number := m.line_number,
                    current_content := m.line_content,
                    suggested_content := r,
                    reason := str "Content outdated based on current code",
                    affected_cache_entries := m.cache_keys })
      else .ok none

/-- The validation loop of `ReadmeValidator::validate_readme`
(readme_validator.rs, lines 70-86): examine exactly the mappings for which
`validation_needed` holds, collecting emitted suggestions; a service failure
propagates. -/
def validateMappings (renv : Str → Option Str) (c : Cache)
    (project_summary : Str) :
    List ReadmeLineMapping → Except DErr (List ValidationResult)
  | [] => .ok []
  | m :: rest =>
    if validation_needed c m then
      match suggest_update renv c project_summary m with
      | .error e => .error e
      | .ok r =>
        match validateMappings renv c project_summary rest with
        | .error e => .error e
        | .ok rs =>
          .ok (match r with | some v => v :: rs | none => rs)
    else validateMappings renv c project_summary rest

/-- The mapping-lifecycle step of `ReadmeValidator::validate_readme`
(readme_validator.rs, lines 57-64): compute the document's fingerprint; on
mismatch rebuild every mapping from the current text and record the new
fingerprint (`CacheManager::update_readme_mapping`), otherwise keep the stored
mappings unchanged. -/
def readme_mapping_phase (hash : Str → Str) (base : FPath) (c : Cache)
    (mdata : ReadmeMappingData) (readme_content : Str) : ReadmeMappingData :=
  let readme_hash := compute_content_hash hash readme_content
  if validate_readme_hash mdata readme_hash then mdata
  else { mdata with readme_hash := readme_hash,
                    mappings := generate_mappings readme_content base c }

/-- Model of `ReadmeValidator::validate_readme` (readme_validator.rs).  The document is
supplied as `readme` (`none`: the file does not exist, which short-circuits
into the synthetic whole-document suggestion).  Returns the mapping store
state after the pass next to the emitted corrections. -/
def validate_readme (hash : Str → Str) (renv : Str → Option Str)
    (base : FPath) (project_summary : Str) (readme : Option Str)
    (mdata : ReadmeMappingData) (c : Cache) :
    Except DErr (ReadmeMappingData × List ValidationResult) :=
  match readme with
  | none =>
    .ok (mdata,
      [{ line_number := 0, current_content := [],
         suggested_content := str "# " ++ fileNameOr (str "Project") base
           ++ str "\n\n" ++ project_summary,
         reason := str "README.md does not exist",
         affected_cache_entries := [] }])
  | some readme_content =>
    let mdata1 := readme_mapping_phase hash base c mdata readme_content
    match validateMappings renv c project_summary mdata1.mappings with
    | .error e => .error e
    | .ok results => .ok (mdata1, results)

/-! ## cache.rs : age-based cleanup

`cleanup_old_files` walks the cache directory tree on disk; the directory
tree is modelled as `CacheFsTree`.  A file's `parsed` field is the combined
outcome of `fs::read_to_string` plus `serde_json::from_str` (`none`: the read
or the parse failed, in which case the file is left alone). -/
inductive CacheFsTree where
  | file (name : Str) (parsed : Option CacheSummary)
  | dir (name : Str) (children : List CacheFsTree)

/-- The cache-record file-name test used by the cleanup walk
(`name.ends_with(".summary.json") || name == ".dir_summary.json"`). -/
def isCacheFileName (name : Str) : Bool :=
  (str ".summary.json").isSuffixOf name || name == str ".dir_summary.json"

/-- Whether `cleanup_old_files` removes this file: it must look like a cache
record, parse, and carry a timestamp strictly below the cutoff. -/
def removesFile (cutoff_time : Nat) (name : Str) (parsed : Option CacheSummary) :
    Bool :=
  isCacheFileName name &&
    match parsed with
    | some s => decide (s.timestamp < cutoff_time)
    | none => false

mutual
/-- The handling of one directory entry inside `cleanup_old_files` (cache.rs):
recurse into subdirectories; delete a file iff it is an old parseable cache
record (`none` = removed). -/
def cleanup_entry (cutoff_time : Nat) : CacheFsTree → Option CacheFsTree
  | .dir n cs => some (.dir n (cleanup_old_files cutoff_time cs))
  | .file n p => if removesFile cutoff_time n p then none else some (.file n p)

/-- Model of `CacheManager::cleanup_old_files` (cache.rs): recursively delete exactly
the parseable cache records older than the cutoff; directories and other
files stay. -/
def cleanup_old_files (cutoff_time : Nat) :
    List CacheFsTree → List CacheFsTree
  | [] => []
  | t :: rest =>
    match cleanup_entry cutoff_time t with
    | none => cleanup_old_files cutoff_time rest
    | some t1 => t1 :: cleanup_old_files cutoff_time rest
end

/-- The cutoff computed by `CacheManager::cleanup_old_entries` (cache.rs):
`now.as_secs() - (max_age_days * 24 * 60 * 60)` in `u64` arithmetic, so both
the multiplication and the subtraction wrap modulo `2 ^ 64` (release-build
semantics; when `max_age_days * 86400` exceeds the clock the difference wraps
to a value near `2 ^ 64` and every parseable record falls below it). -/
def cleanup_cutoff (now max_age_days : Nat) : Nat :=
  (now % 2 ^ 64 + (2 ^ 64 - max_age_days * 24 * 60 * 60 % 2 ^ 64)) % 2 ^ 64

/-- Model of `CacheManager::cleanup_old_entries` (cache.rs): compute the cutoff from
the clock and the age in days with wrapping `u64` arithmetic, run the walk,
and return `Ok(())` — the unit value, not a count. -/
def cleanup_old_entries (now max_age_days : Nat) (cache_dir : List CacheFsTree) :
    List CacheFsTree × Unit :=
  let cutoff_time := cleanup_cutoff now max_age_days
  (cleanup_old_files cutoff_time cache_dir, ())

mutual
/-- The parseable cache records in one directory entry. -/
def entriesOf : CacheFsTree → List CacheSummary
  | .dir _ cs => collectEntries cs
  | .file n p => if isCacheFileName n then p.toList else []

/-- All parseable cache records in the directory tree, in walk order. -/
def collectEntries : List CacheFsTree → List CacheSummary
  | [] => []
  | t :: rest => entriesOf t ++ collectEntries rest
end

mutual
/-- The files of one directory entry that are not parseable cache records. -/
def otherFilesOf : CacheFsTree → List (Str × Option CacheSummary)
  | .dir _ cs => collectOtherFiles cs
  | .file n p => if isCacheFileName n && p.isSome then [] else [(n, p)]

/-- All files that are not parseable cache records (foreign files, corrupt
records), with their payloads, in walk order. -/
def collectOtherFiles : List CacheFsTree → List (Str × Option CacheSummary)
  | [] => []
  | t :: rest => otherFilesOf t ++ collectOtherFiles rest
end

/-- Cleanup fixture: a cache directory holding one record older than the
cutoff used below. -/
def cleanupFixtureOld : List CacheFsTree :=
  [.file (str "a.rs.summary.json")
    (some { source_path := [str "a.rs"], content_hash := str "f1",
            summary := str "s", timestamp := 3, is_directory := false })]

/-- Cleanup fixture: the same directory with the record newer than the
cutoff. -/
def cleanupFixtureNew : List CacheFsTree :=
  [.file (str "a.rs.summary.json")
    (some { source_path := [str "a.rs"], content_hash := str "f1",
            summary := str "s", timestamp := 200000, is_directory := false })]

/-- Fixture for the directory-fallback witness: the generation service always
fails. -/
def envC4 : Env :=
  { hashFile := fun _ => none, readFile := fun _ => none,
    genFile := fun _ _ => none, genDir := fun _ _ => none, now := 0 }

/-- Fixture: a directory node whose single child was already summarized. -/
def nodeC4 : FileNode :=
  { path := [str "b", str "d"], is_directory := true,
    children := [{ path := [str "b", str "d", str "x.rs"],
                   is_directory := false, children := [],
                   content_hash := some (str "h1"),
                   summary := some (str "child sum") }],
    content_hash := none, summary := none }

/-- Fixture: an empty directory tree (no children at all), which ends the walk
with no root summary. -/
def rootC5 : FileNode :=
  { path := [str "b"], is_directory := true, children := [],
    content_hash := none, summary := none }

/-- Fixture: an environment whose file-hash reads fail with an I/O error. -/
def envC3 : Env :=
  { hashFile := fun _ => none, readFile := fun _ => some (str "fn main()"),
    genFile := fun _ _ => some (str "a file summary"),
    genDir := fun _ _ => some (str "a directory summary"), now := 0 }

/-- Fixture: an environment where hashing succeeds but reading the content
fails. -/
def envC3b : Env :=
  { hashFile := fun _ => some (str "f1"), readFile := fun _ => none,
    genFile := fun _ _ => some (str "a file summary"),
    genDir := fun _ _ => some (str "a directory summary"), now := 0 }

/-- Fixture: a project tree with a single source file. -/
def treeC3 : FileNode :=
  { path := [str "b"], is_directory := true,
    children := [{ path := [str "b", str "a.rs"], is_directory := false,
                   children := [], content_hash := none, summary := none }],
    content_hash := none, summary := none }

/-- Fixture: a cache entry for `src/cache.rs`. -/
def pC6 : FPath := [str "src", str "cache.rs"]

/-- Fixture cache entry. -/
def entryC6 : CacheSummary :=
  { source_path := pC6, content_hash := str "f1",
    summary := str "persistence layer for summaries", timestamp := 1,
    is_directory := false }

/-- Fixture cache. -/
def cC6 : Cache := [(pC6, entryC6)]

/-- Fixture line mapping, as `generate_mappings` creates them (no validated
fingerprint). -/
def mC6 : ReadmeLineMapping :=
  { line_number := 1,
    line_content := str "See src/cache.rs for the cache layer",
    cache_keys := [pC6], last_validated_hash := none }

/-- Fixture README content. -/
def contentC6 : Str := str "See src/cache.rs for the cache layer"

/-- Fixture mapping store whose document fingerprint matches `contentC6`, so
the mappings are reused on this pass. -/
def mdataC6 : ReadmeMappingData :=
  { version := str "1.0.0", readme_hash := hexEncode contentC6,
    mappings := [mC6] }

/-- Fixture service: always answers the no-change sentinel. -/
def renvC6 : Str → Option Str := fun _ => some (str "NO_CHANGE")

mutual
/-- Every node of a tree (the node itself and, recursively, its children). -/
def allNodes : FileNode → List FileNode
  | ⟨p, d, cs, ch, su⟩ => ⟨p, d, cs, ch, su⟩ :: allNodesL cs

/-- Every node of a forest. -/
def allNodesL : List FileNode → List FileNode
  | [] => []
  | c :: rest => allNodes c ++ allNodesL rest
end

/-- Two effect oracles that agree everywhere except possibly on reads of the
single path `q`. -/
def envAgreeExcept (e1 e2 : Env) (q : FPath) : Prop :=
  e1.genFile = e2.genFile ∧ e1.genDir = e2.genDir ∧ e1.now = e2.now ∧
    ∀ r, r ≠ q → e1.hashFile r = e2.hashFile r ∧ e1.readFile r = e2.readFile r

/-- Fixture: the path of a non-source file. -/
def qC10 : FPath := [str "b", str "notes.txt"]

/-- Fixture: a tree with one source file and one non-source file. -/
def treeC10 : FileNode :=
  { path := [str "b"], is_directory := true,
    children := [{ path := [str "b", str "a.rs"], is_directory := false,
                   children := [], content_hash := none, summary := none },
                 { path := qC10, is_directory := false, children := [],
                   content_hash := none, summary := none }],
    content_hash := none, summary := none }

/-- Fixture: `envC3b` with its reads changed at `qC10` only. -/
def envC10 : Env :=
  { envC3b with
      hashFile := fun p => if p == qC10 then none else envC3b.hashFile p,
      readFile := fun p =>
        if p == qC10 then some (str "changed notes") else envC3b.readFile p }

/-! ## The Merkle fingerprint scheme, extracted from the summarizer

`pureFp` is the fingerprint `summarize_tree` assigns to every node on a run
in which every readable source file is summarized: a source file's
fingerprint is the digest of its content (`compute_file_hash`), a directory
owns a fingerprint exactly when some descendant produced a summary, and it is
`compute_directory_hash` over the ordered fingerprints of the children that
have one (summarizer.rs lines 79-80 and 153-160).  `summarize_tree_good`
below proves this correspondence against the summarizer itself. -/
/-- Navigate to the subtree at a position (a list of child indices). -/
def subtreeAt : FileNode → List Nat → Option FileNode
  | t, [] => some t
  | t, i :: rest =>
    match t.children.get? i with
    | none => none
    | some c => subtreeAt c rest

/-- The fingerprint recorded at a position of a processed tree. -/
def fpAt (root : FileNode) (pos : List Nat) : Option Str :=
  (subtreeAt root pos).bind (fun u => u.content_hash)

mutual
/-- Whether a node ends a fully-good run with a summary: files iff they are
source files, directories iff some child does. -/
def pureSumm : FileNode → Bool
  | ⟨p, d, cs, ch, su⟩ =>
    if d then pureSummL cs else is_source_code_file ⟨p, d, cs, ch, su⟩

/-- Disjunction of `pureSumm` over a forest: does any node produce a summary? -/
def pureSummL : List FileNode → Bool
  | [] => false
  | c :: rest => pureSumm c || pureSummL rest
end

mutual
/-- The fingerprint a fully-good run assigns to a node (`none`: the node gets
no fingerprint — a non-source file, or a directory with no summarizable
content). -/
def pureFp (hash : Str → Str) (content : FPath → Str) : FileNode → Option Str
  | ⟨p, d, cs, ch, su⟩ =>
    if d then
      if pureSummL cs then
        some (compute_directory_hash hash (pureFpL hash content cs))
      else none
    else if is_source_code_file ⟨p, d, cs, ch, su⟩ then
      some (hash (content p))
    else none

/-- The ordered fingerprints of the children that have one — the
`children_hashes` of summarizer.rs line 154. -/
def pureFpL (hash : Str → Str) (content : FPath → Str) : List FileNode → List Str
  | [] => []
  | c :: rest => (pureFp hash content c).toList ++ pureFpL hash content rest
end

mutual
/-- The paths of the source-code files of a tree, in walk order. -/
def sourcePaths : FileNode → List FPath
  | ⟨p, d, cs, ch, su⟩ =>
    (if is_source_code_file ⟨p, d, cs, ch, su⟩ then [p] else [])
      ++ sourcePathsL cs

/-- Concatenation of `sourcePaths` over a forest. -/
def sourcePathsL : List FileNode → List FPath
  | [] => []
  | c :: rest => sourcePaths c ++ sourcePathsL rest
end

mutual
/-- The input/output relation of a fully-good run: the processed node keeps
its path, kind and (recursively) its child structure, carries exactly the
`pureFp` fingerprint of the input node, and carries a summary exactly when
`pureSumm` says so. -/
def FpRel (hash : Str → Str) (content : FPath → Str) :
    FileNode → FileNode → Prop
  | ⟨p, d, cs, ch, su⟩, t1 =>
    t1.path = p ∧ t1.is_directory = d
      ∧ t1.content_hash = pureFp hash content ⟨p, d, cs, ch, su⟩
      ∧ t1.summary.isSome = pureSumm ⟨p, d, cs, ch, su⟩
      ∧ FpRelL hash content cs t1.children

/-- Pointwise `FpRel`, child by child. -/
def FpRelL (hash : Str → Str) (content : FPath → Str) :
    List FileNode → List FileNode → Prop
  | [], l => l = []
  | c :: rest, l =>
    ∃ c1 l1, l = c1 :: l1 ∧ FpRel hash content c c1 ∧ FpRelL hash content rest l1
end

/-- A "good" oracle for a content assignment: hashing and reading succeed and
agree with the content, and the generation service always answers. -/
def GoodEnv (hash : Str → Str) (content : FPath → Str) (env : Env) : Prop :=
  (∀ p, env.hashFile p = some (hash (content p)))
    ∧ (∀ p, env.readFile p = some (content p))
    ∧ (∀ r c, (env.genFile r c).isSome = true)
    ∧ (∀ n l, (env.genDir n l).isSome = true)

/-- A scanner-fresh, well-formed tree: every node has no fingerprint and no
summary yet, and file nodes have no children. -/
def FreshTree (t : FileNode) : Prop :=
  ∀ u ∈ allNodes t, u.content_hash = none ∧ u.summary = none
    ∧ (u.is_directory = false → u.children = [])

/-- Witness fixture: original content of every file. -/
def contentW : FPath → Str := fun _ => str "fn alpha()"

/-- Witness fixture: the changed leaf's path. -/
def leafPathW : FPath := [str "b", str "sub", str "a.rs"]

/-- Witness fixture: content after editing the one leaf. -/
def contentW2 : FPath → Str :=
  fun q => if q == leafPathW then str "fn beta()" else contentW q

/-- Witness fixture: a good oracle for `contentW`. -/
def envW : Env :=
  { hashFile := fun p => some (hexEncode (contentW p)),
    readFile := fun p => some (contentW p),
    genFile := fun _ _ => some (str "fs"),
    genDir := fun _ _ => some (str "ds"), now := 0 }

/-- Witness fixture: a good oracle for `contentW2`. -/
def envW2 : Env :=
  { hashFile := fun p => some (hexEncode (contentW2 p)),
    readFile := fun p => some (contentW2 p),
    genFile := fun _ _ => some (str "fs"),
    genDir := fun _ _ => some (str "ds"), now := 0 }

/-- Witness fixture: the changed leaf. -/
def leafW : FileNode :=
  { path := leafPathW, is_directory := false, children := [],
    content_hash := none, summary := none }

/-- Witness fixture: a tree with the leaf inside a subdirectory and an
unrelated sibling source file. -/
def treeW : FileNode :=
  { path := [str "b"], is_directory := true,
    children := [{ path := [str "b", str "sub"], is_directory := true,
                   children := [leafW], content_hash := none, summary := none },
                 { path := [str "b", str "c.rs"], is_directory := false,
                   children := [], content_hash := none, summary := none }],
    content_hash := none, summary := none }

theorem hexDigit_inj {a b : Nat} (ha : a < 16) (hb : b < 16) :
    hexDigit a = hexDigit b → a = b := by
  interval_cases a <;> interval_cases b <;> decide

theorem hexDigit_ne_bar {n : Nat} (h : n < 16) : hexDigit n ≠ '|' := by
  interval_cases n <;> decide

theorem char_toNat_inj {a b : Char} (h : a.toNat = b.toNat) : a = b :=
  Char.ext (UInt32.ext h)

theorem encChar_inj {a b : Char} (h : encChar a = encChar b) : a = b := by
  simp only [encChar, List.cons.injEq, and_true] at h
  obtain ⟨h1, h2, h3, h4, h5, h6, h7, h8⟩ := h
  have m : ∀ k : Nat, k % 16 < 16 := fun k => Nat.mod_lt _ (by norm_num)
  have e1 := hexDigit_inj (m _) (m _) h1
  have e2 := hexDigit_inj (m _) (m _) h2
  have e3 := hexDigit_inj (m _) (m _) h3
  have e4 := hexDigit_inj (m _) (m _) h4
  have e5 := hexDigit_inj (m _) (m _) h5
  have e6 := hexDigit_inj (m _) (m _) h6
  have e7 := hexDigit_inj (m _) (m _) h7
  have e8 := hexDigit_inj (m _) (m _) h8
  have ha : a.toNat < 4294967296 := by
    have h := UInt32.toNat_lt a.val
    norm_num at h
    exact h
  have hb : b.toNat < 4294967296 := by
    have h := UInt32.toNat_lt b.val
    norm_num at h
    exact h
  exact char_toNat_inj (by omega)

theorem encChar_length (c : Char) : (encChar c).length = 8 := rfl

theorem bar_not_mem_encChar (c : Char) : '|' ∉ encChar c := by
  intro h
  simp only [encChar, List.mem_cons, List.not_mem_nil, or_false] at h
  have m : ∀ k : Nat, k % 16 < 16 := fun k => Nat.mod_lt _ (by norm_num)
  rcases h with h | h | h | h | h | h | h | h <;>
    exact hexDigit_ne_bar (m _) h.symm

theorem hexEncode_injective : Function.Injective hexEncode := by
  intro s1 s2 h
  induction s1 generalizing s2 with
  | nil =>
    cases s2 with
    | nil => rfl
    | cons b t =>
      exfalso
      have := congrArg List.length h
      simp [hexEncode, encChar] at this
  | cons a t ih =>
    cases s2 with
    | nil =>
      exfalso
      have := congrArg List.length h
      simp [hexEncode, encChar] at this
    | cons b t2 =>
      have h' : encChar a ++ hexEncode t = encChar b ++ hexEncode t2 := by
        simpa [hexEncode] using h
      have hl : (encChar a).length = (encChar b).length := by
        rw [encChar_length, encChar_length]
      obtain ⟨hab, hrest⟩ := List.append_inj h' hl
      rw [encChar_inj hab, ih hrest]

theorem bar_not_mem_hexEncode (s : Str) : '|' ∉ hexEncode s := by
  intro h
  induction s with
  | nil => simp [hexEncode] at h
  | cons a t ih =>
    rw [hexEncode, List.flatMap_cons, List.mem_append] at h
    rcases h with h | h
    · exact bar_not_mem_encChar a h
    · exact ih h

/-! ### Injectivity of the delimiter join on same-length, delimiter-free lists -/
theorem intercalate_bar_inj {l1 l2 : List Str}
    (h1 : ∀ s ∈ l1, '|' ∉ s) (h2 : ∀ s ∈ l2, '|' ∉ s)
    (hlen : l1.length = l2.length)
    (h : List.intercalate (str "|") l1 = List.intercalate (str "|") l2) :
    l1 = l2 := by
  cases l1 with
  | nil =>
    cases l2 with
    | nil => rfl
    | cons b t2 => simp at hlen
  | cons a t =>
    cases l2 with
    | nil => simp at hlen
    | cons b t2 =>
      have e1 := List.splitOn_intercalate (a :: t) '|' h1 (by simp)
      have e2 := List.splitOn_intercalate (b :: t2) '|' h2 (by simp)
      have h' : List.intercalate ['|'] (a :: t) = List.intercalate ['|'] (b :: t2) := h
      rw [← e1, ← e2, h']

/-- C2: cache round-trip and validity gate. -/
theorem C2_cache_round_trip (c : Cache) (p : FPath) (h s : Str) (ts : Nat)
    (d : Bool) :
    get_cached_summary (store_summary c p h s ts d) p h = some s
    ∧ (∀ h2, h2 ≠ h → get_cached_summary (store_summary c p h s ts d) p h2 = none)
    ∧ (List.lookup p c = none → ∀ h3, get_cached_summary c p h3 = none) := by
  refine ⟨?_, ?_, ?_⟩
  · simp [get_cached_summary, store_summary]
  · intro h2 hne
    simp [get_cached_summary, store_summary]
    intro he
    exact absurd he.symm hne
  · intro hl h3
    simp [get_cached_summary, hl]

theorem C2_cache_round_trip_witness :
    get_cached_summary
      (store_summary [] [str "src", str "a.rs"] (str "f1") (str "the summary") 7 false)
      [str "src", str "a.rs"] (str "f1") = some (str "the summary")
    ∧ get_cached_summary
      (store_summary [] [str "src", str "a.rs"] (str "f1") (str "the summary") 7 false)
      [str "src", str "a.rs"] (str "f2") = none
    ∧ get_cached_summary [] [str "src", str "a.rs"] (str "f1") = none :=
  ⟨(C2_cache_round_trip [] [str "src", str "a.rs"] (str "f1") (str "the summary") 7 false).1,
   (C2_cache_round_trip [] [str "src", str "a.rs"] (str "f1") (str "the summary") 7 false).2.1
     (str "f2") (by decide),
   (C2_cache_round_trip [] [str "src", str "a.rs"] (str "f1") (str "the summary") 7 false).2.2
     rfl (str "f1")⟩

/-- C8 counterexample: for a singleton digest sequence, the reversal equals
the sequence itself, so `compute_directory_hash` cannot change — refuting
"for every ordered sequence S of digests, reversing S changes the result". -/
theorem C8_counterexample :
    compute_directory_hash hexEncode [str "aa"] =
      compute_directory_hash hexEncode (List.reverse [str "aa"]) := rfl

/-- C8 (amended): reversing a delimiter-free digest sequence that is not its
own reversal changes `compute_directory_hash` (for a collision-free digest),
and applying `compute_directory_hash` to the same sequence twice always
yields the same result. -/
theorem C8_order_sensitivity (hash : Str → Str)
    (hinj : Function.Injective hash) (S : List Str)
    (hbar : ∀ s ∈ S, '|' ∉ s) (hne : S ≠ S.reverse) :
    compute_directory_hash hash S ≠ compute_directory_hash hash S.reverse
    ∧ compute_directory_hash hash S = compute_directory_hash hash S := by
  refine ⟨?_, rfl⟩
  intro h
  apply hne
  have hj : List.intercalate (str "|") S = List.intercalate (str "|") S.reverse :=
    hinj h
  exact intercalate_bar_inj hbar (fun s hs => hbar s (List.mem_reverse.mp hs))
    (by simp) hj

theorem C8_order_sensitivity_witness :
    compute_directory_hash hexEncode [str "a", str "b"] ≠
      compute_directory_hash hexEncode (List.reverse [str "a", str "b"])
    ∧ compute_directory_hash hexEncode [str "a", str "b"] =
      compute_directory_hash hexEncode [str "a", str "b"] :=
  C8_order_sensitivity hexEncode hexEncode_injective [str "a", str "b"]
    (by decide) (by decide)

/-- C9 counterexample: `cleanup_old_entries` returns the unit value whether it
removes one entry or none, so its return value is not the number of entries
removed (the claimed `removedCount` does not exist). -/
theorem C9_counterexample :
    (cleanup_old_entries 200000 1 cleanupFixtureOld).2 =
      (cleanup_old_entries 200000 1 cleanupFixtureNew).2
    ∧ (collectEntries cleanupFixtureOld).length -
        (collectEntries (cleanup_old_entries 200000 1 cleanupFixtureOld).1).length = 1
    ∧ (collectEntries cleanupFixtureNew).length -
        (collectEntries (cleanup_old_entries 200000 1 cleanupFixtureNew).1).length = 0 :=
  ⟨rfl, rfl, rfl⟩

/-- When the age converted to seconds exceeds the clock, the `u64` cutoff
wraps to a value near `2 ^ 64` and the cleanup removes every parseable cache
record, even one newer than the clock itself. -/
theorem cleanup_cutoff_wraps :
    cleanup_cutoff 200000 30000 = 18446744071117751616
    ∧ collectEntries (cleanup_old_entries 200000 30000 cleanupFixtureNew).1 = [] :=
  ⟨rfl, rfl⟩

theorem cleanup_entries_filter (cutoff_time : Nat) (ts : List CacheFsTree) :
    collectEntries (cleanup_old_files cutoff_time ts) =
      (collectEntries ts).filter (fun e => !decide (e.timestamp < cutoff_time)) := by
  refine cleanup_old_files.induct cutoff_time
    (fun t => (match cleanup_entry cutoff_time t with
               | none => []
               | some t1 => entriesOf t1) =
      (entriesOf t).filter (fun e => !decide (e.timestamp < cutoff_time)))
    (fun l => collectEntries (cleanup_old_files cutoff_time l) =
      (collectEntries l).filter (fun e => !decide (e.timestamp < cutoff_time)))
    ?_ ?_ ?_ ?_ ?_ ?_ ts
  · intro n cs ih
    simpa [cleanup_entry, entriesOf] using ih
  · intro n p hrem
    rcases p with _ | e
    · simp [removesFile] at hrem
    · simp only [removesFile, Bool.and_eq_true, decide_eq_true_eq] at hrem
      simp [cleanup_entry, removesFile, entriesOf, hrem.1, hrem.2]
  · intro n p hrem
    simp only [cleanup_entry, if_neg hrem]
    rcases p with _ | e
    · simp [entriesOf]
    · simp only [removesFile, Bool.and_eq_true, decide_eq_true_eq, not_and] at hrem
      by_cases hn : isCacheFileName n = true
      · have he : ¬ e.timestamp < cutoff_time := hrem hn
        simp [entriesOf, hn, he]
      · simp [entriesOf, hn]
  · rfl
  · intro t rest hnone ih1 ih2
    rw [hnone] at ih1
    simp only at ih1
    simp [cleanup_old_files, hnone, collectEntries, List.filter_append, ih2, ← ih1]
  · intro t rest t1 hsome ih1 ih2
    rw [hsome] at ih1
    simp only at ih1
    simp [cleanup_old_files, hsome, collectEntries, List.filter_append, ih2, ih1]

theorem cleanup_other_files (cutoff_time : Nat) (ts : List CacheFsTree) :
    collectOtherFiles (cleanup_old_files cutoff_time ts) = collectOtherFiles ts := by
  refine cleanup_old_files.induct cutoff_time
    (fun t => (match cleanup_entry cutoff_time t with
               | none => []
               | some t1 => otherFilesOf t1) = otherFilesOf t)
    (fun l => collectOtherFiles (cleanup_old_files cutoff_time l) =
      collectOtherFiles l)
    ?_ ?_ ?_ ?_ ?_ ?_ ts
  · intro n cs ih
    simpa [cleanup_entry, otherFilesOf] using ih
  · intro n p hrem
    rcases p with _ | e
    · simp [removesFile] at hrem
    · simp only [removesFile, Bool.and_eq_true, decide_eq_true_eq] at hrem
      simp [cleanup_entry, removesFile, otherFilesOf, hrem.1, hrem.2]
  · intro n p hrem
    simp [cleanup_entry, if_neg hrem]
  · rfl
  · intro t rest hnone ih1 ih2
    rw [hnone] at ih1
    simp only at ih1
    simp [cleanup_old_files, hnone, collectOtherFiles, ih2, ← ih1]
  · intro t rest t1 hsome ih1 ih2
    rw [hsome] at ih1
    simp only at ih1
    simp [cleanup_old_files, hsome, collectOtherFiles, ih2, ih1]

/-- C9 (amended): the age-based cleanup removes exactly the parseable cache
records whose creation timestamp is strictly older than the cutoff (now minus
the age converted to seconds, in wrapping `u64` arithmetic, so an age larger
than the clock wraps the cutoff to near `2 ^ 64`); records at or newer than
the cutoff, foreign files and unparseable records are left in place; the
operation returns the unit value, not a count of removed entries. -/
theorem C9_cleanup_old_entries (now max_age_days : Nat) (ts : List CacheFsTree) :
    collectEntries (cleanup_old_entries now max_age_days ts).1 =
      (collectEntries ts).filter
        (fun e => !decide (e.timestamp < cleanup_cutoff now max_age_days))
    ∧ collectOtherFiles (cleanup_old_entries now max_age_days ts).1 =
        collectOtherFiles ts
    ∧ (cleanup_old_entries now max_age_days ts).2 = () :=
  ⟨cleanup_entries_filter _ ts, cleanup_other_files _ ts, rfl⟩

/-- C4: when a directory has at least one formatted child summary and the
generation service fails for it (after its retry budget), the directory still
ends the walk with a summary — the deterministic concatenation of the
formatted child summaries — and nothing is written to the cache. -/
theorem C4_directory_fallback (hash : Str → Str) (env : Env) (force : Bool)
    (base : FPath) (node : FileNode) (cache : Cache) (rel : FPath)
    (cs : List Str)
    (hrel : get_relative_path base node.path = .ok rel)
    (hcs : collectChildSummaries base node.children = .ok cs)
    (hne : cs ≠ [])
    (hmiss : (if force then none
              else get_cached_summary cache node.path
                (compute_directory_hash hash
                  (node.children.filterMap (fun c => c.content_hash)))) = none)
    (hfail : env.genDir (fileNameOr (str "project root") rel) cs = none) :
    summarize_directory hash env force base node cache =
      .ok ({ node with
              content_hash := some (compute_directory_hash hash
                (node.children.filterMap (fun c => c.content_hash))),
              summary := some (str "Contains: " ++
                List.intercalate (str ", ") cs) }, cache) := by
  have hne' : cs.isEmpty = false := by
    cases cs with
    | nil => exact absurd rfl hne
    | cons a t => rfl
  unfold summarize_directory
  simp only [hrel, hcs, hne', Bool.false_eq_true, if_false, hmiss, hfail]

theorem C4_directory_fallback_witness :
    summarize_directory hexEncode envC4 false [str "b"] nodeC4 [] =
      .ok ({ nodeC4 with
              content_hash := some (compute_directory_hash hexEncode
                (nodeC4.children.filterMap (fun c => c.content_hash))),
              summary := some (str "Contains: " ++
                List.intercalate (str ", ") [str "**x.rs**: child sum"]) }, []) :=
  C4_directory_fallback hexEncode envC4 false [str "b"] nodeC4 []
    [str "d"] [str "**x.rs**: child sum"] rfl rfl (by decide) rfl rfl

theorem get_relative_path_error_is_path {base p : FPath} {e : DErr}
    (h : get_relative_path base p = .error e) : e = .path := by
  unfold get_relative_path at h
  split at h
  · exact absurd h (by simp)
  · injection h with h1
    exact h1.symm

theorem summarize_file_no_summarizer (env : Env) (force : Bool) (base : FPath)
    (node : FileNode) (cache : Cache) :
    summarize_file env force base node cache ≠ .error .summarizer := by
  unfold summarize_file
  split
  · simp
  · split
    · simp
    · split
      · simp
      · split
        · simp
        · split
          · simp
          · split
            · rename_i e heq
              intro h
              injection h with h1
              subst h1
              exact absurd (get_relative_path_error_is_path heq) (by decide)
            · split <;> simp

theorem collectChildSummaries_no_summarizer (base : FPath) :
    ∀ l : List FileNode, collectChildSummaries base l ≠ .error .summarizer := by
  intro l
  induction l with
  | nil => simp [collectChildSummaries]
  | cons c rest ih =>
    unfold collectChildSummaries
    cases hs : c.summary with
    | none => exact ih
    | some s =>
      cases hrel : get_relative_path base c.path with
      | error e =>
        have := get_relative_path_error_is_path hrel
        simp [this]
      | ok rel =>
        cases hrest : collectChildSummaries base rest with
        | error e =>
          intro h
          injection h with h1
          rw [h1] at hrest
          exact ih hrest
        | ok tail => simp

theorem summarize_directory_no_summarizer (hash : Str → Str) (env : Env)
    (force : Bool) (base : FPath) (node : FileNode) (cache : Cache) :
    summarize_directory hash env force base node cache ≠ .error .summarizer := by
  unfold summarize_directory
  cases hrel : get_relative_path base node.path with
  | error e =>
    have he := get_relative_path_error_is_path hrel
    subst he
    simp [hrel]
  | ok rel =>
    cases hcs : collectChildSummaries base node.children with
    | error e =>
      simp only [hrel, hcs]
      intro h
      injection h with h1
      rw [h1] at hcs
      exact collectChildSummaries_no_summarizer base node.children hcs
    | ok cs =>
      by_cases hemp : cs.isEmpty
      · simp [hrel, hcs, hemp]
      · cases hcache : (if force then none
            else get_cached_summary cache node.path
              (compute_directory_hash hash
                (node.children.filterMap (fun c => c.content_hash)))) with
        | some cached => simp [hrel, hcs, hemp, hcache]
        | none =>
          cases hgd : env.genDir (fileNameOr (str "project root") rel) cs with
          | some s => simp [hrel, hcs, hemp, hcache, hgd]
          | none => simp [hrel, hcs, hemp, hcache, hgd]

theorem summarize_tree_no_summarizer (hash : Str → Str) (env : Env)
    (force : Bool) (base : FPath) :
    ∀ (node : FileNode) (cache : Cache),
      summarize_tree hash env force base node cache ≠ .error .summarizer := by
  intro node cache
  refine summarize_tree.induct hash env force base
    (fun node cache =>
      summarize_tree hash env force base node cache ≠ .error .summarizer)
    (fun nodes cache =>
      summarize_children hash env force base nodes cache ≠ .error .summarizer)
    ?_ ?_ ?_ ?_ ?_ ?_ ?_ node cache
  · intro path children chash summ cache e herr ih
    unfold summarize_tree
    simp only [if_pos rfl, herr]
    intro h
    injection h with h1
    rw [h1] at herr
    exact ih (by rw [herr])
  · intro path children chash summ cache children1 cache1 hok ih
    unfold summarize_tree
    simp only [if_pos rfl, hok]
    exact summarize_directory_no_summarizer hash env force base _ cache1
  · intro path is_dir children chash summ cache hnd
    unfold summarize_tree
    simp only [if_neg hnd]
    exact summarize_file_no_summarizer env force base _ cache
  · intro cache
    simp [summarize_children]
  · intro n rest cache e herr ih
    unfold summarize_children
    simp only [herr]
    intro h
    injection h with h1
    rw [h1] at herr
    exact ih herr
  · intro n rest cache n1 cache1 hok e herr ih1 ih2
    unfold summarize_children
    simp only [hok, herr]
    intro h
    injection h with h1
    rw [h1] at herr
    exact ih2 herr
  · intro n rest cache n1 cache1 hok children1 cache2 hok2 ih1 ih2
    unfold summarize_children
    simp only [hok, hok2]
    simp

/-- C5: `generate_project_summary` returns the root node's summary as the
overall project summary, and returns the `Summarizer` error exactly when the
walk completes with the root carrying no summary (the walk itself can only
fail with I/O or path errors, never a summarizer error). -/
theorem C5_root_result (hash : Str → Str) (env : Env) (force : Bool)
    (base : FPath) (root : FileNode) (cache : Cache) :
    (∀ root1 c1,
      summarize_tree hash env force base root cache = .ok (root1, c1) →
        generate_project_summary hash env force base root cache =
          (match root1.summary with
           | some s => .ok s
           | none => .error .summarizer))
    ∧ (generate_project_summary hash env force base root cache =
          .error .summarizer ↔
        ∃ root1 c1,
          summarize_tree hash env force base root cache = .ok (root1, c1)
          ∧ root1.summary = none) := by
  constructor
  · intro root1 c1 hok
    unfold generate_project_summary
    simp only [hok]
  · unfold generate_project_summary
    cases hw : summarize_tree hash env force base root cache with
    | error e =>
      constructor
      · intro h
        injection h with h1
        rw [h1] at hw
        exact absurd hw (summarize_tree_no_summarizer hash env force base root cache)
      · rintro ⟨root1, c1, habs, -⟩
        exact Except.noConfusion habs
    | ok rc =>
      obtain ⟨root1, c1⟩ := rc
      constructor
      · intro h
        refine ⟨root1, c1, rfl, ?_⟩
        simp only [Except.ok.injEq] at h
        cases hs : root1.summary with
        | some s => rw [hs] at h; simp at h
        | none => rfl
      · rintro ⟨root2, c2, heq, hnone⟩
        injection heq with heq1
        injection heq1 with ha hb
        rw [← ha] at hnone
        simp [hnone]

theorem C5_root_result_witness :
    generate_project_summary hexEncode envC4 false [str "b"] rootC5 [] =
      .error .summarizer :=
  (C5_root_result hexEncode envC4 false [str "b"] rootC5 []).1 rootC5 [] rfl

theorem is_source_not_dir {n : FileNode} (h : is_source_code_file n = true) :
    n.is_directory = false := by
  unfold is_source_code_file at h
  by_cases hd : n.is_directory = true
  · rw [if_pos hd] at h
    exact absurd h (by simp)
  · simpa using hd

theorem summarize_tree_file (hash : Str → Str) (env : Env) (force : Bool)
    (base : FPath) {node : FileNode} (hd : node.is_directory = false)
    (cache : Cache) :
    summarize_tree hash env force base node cache =
      summarize_file env force base node cache := by
  cases node with
  | mk p d cs ch su =>
    simp only at hd
    subst hd
    unfold summarize_tree
    simp

/-- C3 counterexample: an I/O failure while reading the source file to compute
its content hash (`compute_file_hash`, propagated by `?` in `summarize_file`)
makes the whole summarization fail with an I/O error, contradicting the claim
that such a failure never makes the whole summarization fail. -/
theorem C3_counterexample :
    generate_project_summary hexEncode envC3 false [str "b"] treeC3 [] =
      .error .io := rfl

/-- C3 (amended): once the fingerprint has been computed and the cache misses,
an I/O failure while reading the file's content for summarization skips the
node — no summary, no cache write, no error — and, the call returning `Ok`,
the walk over siblings and parents continues; but an I/O failure while
computing the content hash itself propagates as a fatal I/O error. -/
theorem C3_read_failure_skips (hash : Str → Str) (env : Env) (force : Bool)
    (base : FPath) (node : FileNode) (cache : Cache) (h : Str)
    (hsrc : is_source_code_file node = true)
    (hhash : env.hashFile node.path = some h)
    (hmiss : (if force then none
              else get_cached_summary cache node.path h) = none)
    (hread : env.readFile node.path = none) :
    summarize_file env force base node cache =
      .ok ({ node with content_hash := some h }, cache)
    ∧ (∀ rest cache2,
        summarize_children hash env force base (node :: rest) cache2 =
          match summarize_file env force base node cache2 with
          | .error e => .error e
          | .ok (n1, cache3) =>
            match summarize_children hash env force base rest cache3 with
            | .error e => .error e
            | .ok (rest1, cache4) => .ok (n1 :: rest1, cache4))
    ∧ (env.hashFile node.path = none →
        summarize_file env force base node cache = .error .io) := by
  refine ⟨?_, ?_, ?_⟩
  · unfold summarize_file
    simp only [hsrc, Bool.not_true, Bool.false_eq_true, if_false, hhash,
      hmiss, hread]
  · intro rest cache2
    have hstep : summarize_children hash env force base (node :: rest) cache2 =
        match summarize_tree hash env force base node cache2 with
        | .error e => .error e
        | .ok (n1, cache3) =>
          match summarize_children hash env force base rest cache3 with
          | .error e => .error e
          | .ok (rest1, cache4) => .ok (n1 :: rest1, cache4) := rfl
    rw [hstep,
      summarize_tree_file hash env force base (is_source_not_dir hsrc) cache2]
  · intro habs
    rw [habs] at hhash
    exact Option.noConfusion hhash

theorem C3_read_failure_skips_witness :
    summarize_file envC3b false [str "b"]
        { path := [str "b", str "a.rs"], is_directory := false, children := [],
          content_hash := none, summary := none } [] =
      .ok ({ path := [str "b", str "a.rs"], is_directory := false,
             children := [], content_hash := some (str "f1"),
             summary := none }, []) :=
  (C3_read_failure_skips hexEncode envC3b false [str "b"]
    { path := [str "b", str "a.rs"], is_directory := false, children := [],
      content_hash := none, summary := none } [] (str "f1")
    rfl rfl rfl rfl).1

/-- C7: document-mapping lifecycle.  On each validation pass the document's
fingerprint is computed; if it equals the stored one the mappings survive the
pass unchanged, and if it differs (including the first run, where the stored
fingerprint is the empty default) all mappings are discarded and rebuilt from
the current document text; the mapping store a successful pass returns is
exactly the one this lifecycle step produces. -/
theorem C7_document_mapping_lifecycle (hash : Str → Str)
    (renv : Str → Option Str) (base : FPath) (c : Cache)
    (mdata : ReadmeMappingData) (content ps : Str) :
    (mdata.readme_hash = compute_content_hash hash content →
      readme_mapping_phase hash base c mdata content = mdata)
    ∧ (mdata.readme_hash ≠ compute_content_hash hash content →
      readme_mapping_phase hash base c mdata content =
        { mdata with readme_hash := compute_content_hash hash content,
                     mappings := generate_mappings content base c })
    ∧ (∀ out, validate_readme hash renv base ps (some content) mdata c = .ok out →
        out.1 = readme_mapping_phase hash base c mdata content) := by
  refine ⟨?_, ?_, ?_⟩
  · intro he
    unfold readme_mapping_phase validate_readme_hash
    rw [if_pos (by simpa using he)]
  · intro hne
    unfold readme_mapping_phase validate_readme_hash
    rw [if_neg (by simpa using hne)]
  · intro out hok
    unfold validate_readme at hok
    revert hok
    cases hv : validateMappings renv c ps
        (readme_mapping_phase hash base c mdata content).mappings with
    | error e => simp [hv]
    | ok results =>
      simp only [hv]
      intro hok
      injection hok with h1
      rw [← h1]

set_option maxRecDepth 100000 in
/-- C7 witness (three applications of the lifecycle theorem at concrete
inputs). -/
theorem C7_document_mapping_lifecycle_witness :
    readme_mapping_phase hexEncode [str "base"] cC6 mdataC6 contentC6 = mdataC6
    ∧ readme_mapping_phase hexEncode [str "base"] cC6
        ReadmeMappingData.dflt contentC6 =
      { ReadmeMappingData.dflt with
          readme_hash := compute_content_hash hexEncode contentC6,
          mappings := generate_mappings contentC6 [str "base"] cC6 }
    ∧ (mdataC6, ([] : List ValidationResult)).1 =
        readme_mapping_phase hexEncode [str "base"] cC6 mdataC6 contentC6 :=
  ⟨(C7_document_mapping_lifecycle hexEncode renvC6 [str "base"] cC6 mdataC6
      contentC6 (str "proj")).1 rfl,
   (C7_document_mapping_lifecycle hexEncode renvC6 [str "base"] cC6
      ReadmeMappingData.dflt contentC6 (str "proj")).2.1 (by decide),
   (C7_document_mapping_lifecycle hexEncode renvC6 [str "base"] cC6 mdataC6
      contentC6 (str "proj")).2.2 (mdataC6, []) rfl⟩

set_option maxRecDepth 100000 in
/-- C6 (code bug): at a state where the mapping was already examined on the
previous pass and no fingerprint changed since — README unchanged, cache entry
for `src/cache.rs` still at fingerprint `f1` — a validation pass leaves the
mapping store unchanged (`last_validated_hash` is still `none`; the code never
records it) and `validation_needed` still evaluates to `true`, so the mapping
is re-examined with a service call on every pass instead of being skipped. -/
theorem C6_never_records_validation :
    validate_readme hexEncode renvC6 [str "base"] (str "proj") (some contentC6)
        mdataC6 cC6 = .ok (mdataC6, [])
    ∧ validation_needed cC6 mC6 = true
    ∧ mC6.last_validated_hash = none :=
  ⟨rfl, rfl, rfl⟩

theorem summarize_file_env_agnostic (env1 env2 : Env) (force : Bool)
    (base : FPath) (node : FileNode) (cache : Cache) (q : FPath)
    (hag : envAgreeExcept env1 env2 q)
    (hns : node.path = q → is_source_code_file node = false) :
    summarize_file env1 force base node cache =
      summarize_file env2 force base node cache := by
  by_cases hsrc : is_source_code_file node = true
  · have hpq : node.path ≠ q := by
      intro h
      rw [hns h] at hsrc
      exact Bool.noConfusion hsrc
    obtain ⟨hg, -, hn, hrw⟩ := hag
    obtain ⟨hh, hr⟩ := hrw node.path hpq
    unfold summarize_file
    rw [hh, hr, hg, hn]
  · have h1 : is_source_code_file node = false := by simpa using hsrc
    unfold summarize_file
    simp [h1]

theorem summarize_directory_env_agnostic (hash : Str → Str) (env1 env2 : Env)
    (force : Bool) (base : FPath) (node : FileNode) (cache : Cache)
    (hg : env1.genDir = env2.genDir) (hn : env1.now = env2.now) :
    summarize_directory hash env1 force base node cache =
      summarize_directory hash env2 force base node cache := by
  unfold summarize_directory
  rw [hg, hn]

theorem summarize_tree_env_agnostic (hash : Str → Str) (env1 env2 : Env)
    (force : Bool) (base : FPath) (q : FPath)
    (hag : envAgreeExcept env1 env2 q) :
    ∀ (t : FileNode) (cache : Cache),
      (∀ u ∈ allNodes t, u.path = q → is_source_code_file u = false) →
      summarize_tree hash env1 force base t cache =
        summarize_tree hash env2 force base t cache := by
  intro t cache
  refine summarize_tree.induct hash env1 force base
    (fun t cache =>
      (∀ u ∈ allNodes t, u.path = q → is_source_code_file u = false) →
        summarize_tree hash env1 force base t cache =
          summarize_tree hash env2 force base t cache)
    (fun l cache =>
      (∀ u ∈ allNodesL l, u.path = q → is_source_code_file u = false) →
        summarize_children hash env1 force base l cache =
          summarize_children hash env2 force base l cache)
    ?_ ?_ ?_ ?_ ?_ ?_ ?_ t cache
  · intro path children chash summ cache e herr ih hsub
    have ihc := ih (fun u hu => hsub u (by
      rw [allNodes]
      exact List.mem_cons_of_mem _ hu))
    unfold summarize_tree
    simp only [if_pos rfl]
    rw [← ihc, herr]
    simp
  · intro path children chash summ cache children1 cache1 hok ih hsub
    have ihc := ih (fun u hu => hsub u (by
      rw [allNodes]
      exact List.mem_cons_of_mem _ hu))
    unfold summarize_tree
    simp only [if_pos rfl]
    rw [← ihc, hok]
    simpa using summarize_directory_env_agnostic hash env1 env2 force base
      ⟨path, true, children1, chash, summ⟩ cache1 hag.2.1 hag.2.2.1
  · intro path is_dir children chash summ cache hnd hsub
    have hfalse : is_dir = false := by simpa using hnd
    subst hfalse
    unfold summarize_tree
    simp only [Bool.false_eq_true, if_false]
    refine summarize_file_env_agnostic env1 env2 force base _ cache q hag ?_
    exact hsub _ (by rw [allNodes]; exact List.mem_cons_self _ _)
  · intro cache hsub
    rfl
  · intro n rest cache e herr ih hsub
    have ihn := ih (fun u hu => hsub u (by
      rw [allNodesL]
      exact List.mem_append_left _ hu))
    unfold summarize_children
    rw [← ihn, herr]
  · intro n rest cache n1 cache1 hok e herr ih1 ih2 hsub
    have ihn := ih1 (fun u hu => hsub u (by
      rw [allNodesL]
      exact List.mem_append_left _ hu))
    have ihr := ih2 (fun u hu => hsub u (by
      rw [allNodesL]
      exact List.mem_append_right _ hu))
    unfold summarize_children
    rw [← ihn, hok]
    simp only [ihr]
  · intro n rest cache n1 cache1 hok children1 cache2 hok2 ih1 ih2 hsub
    have ihn := ih1 (fun u hu => hsub u (by
      rw [allNodesL]
      exact List.mem_append_left _ hu))
    have ihr := ih2 (fun u hu => hsub u (by
      rw [allNodesL]
      exact List.mem_append_right _ hu))
    unfold summarize_children
    rw [← ihn, hok]
    simp only [ihr]

/-- C10: a file whose lowercased extension is not whitelisted is returned
untouched by `summarize_file` — same node, same cache, for every oracle (so
no fingerprint is computed, nothing is read, no service call is made and no
cache entry is written) — and a whole-tree run is unchanged when the oracle
changes only at a path at which the tree holds no source file, so such a
file's content never reaches any directory fingerprint. -/
theorem C10_non_source_file_frame :
    (∀ (env : Env) (force : Bool) (base : FPath) (node : FileNode)
       (cache : Cache),
       is_source_code_file node = false →
       summarize_file env force base node cache = .ok (node, cache))
    ∧ (∀ (hash : Str → Str) (env1 env2 : Env) (force : Bool) (base : FPath)
         (t : FileNode) (cache : Cache) (q : FPath),
         envAgreeExcept env1 env2 q →
         (∀ u ∈ allNodes t, u.path = q → is_source_code_file u = false) →
         summarize_tree hash env1 force base t cache =
           summarize_tree hash env2 force base t cache) := by
  constructor
  · intro env force base node cache h
    unfold summarize_file
    simp [h]
  · intro hash env1 env2 force base t cache q hag hns
    exact summarize_tree_env_agnostic hash env1 env2 force base q hag t cache hns

theorem C10_non_source_file_frame_witness :
    summarize_file envC10 false [str "b"]
        { path := qC10, is_directory := false, children := [],
          content_hash := none, summary := none } [] =
      .ok ({ path := qC10, is_directory := false, children := [],
             content_hash := none, summary := none }, [])
    ∧ summarize_tree hexEncode envC3b false [str "b"] treeC10 [] =
        summarize_tree hexEncode envC10 false [str "b"] treeC10 [] :=
  ⟨C10_non_source_file_frame.1 envC10 false [str "b"] _ [] (by decide),
   C10_non_source_file_frame.2 hexEncode envC3b envC10 false [str "b"] treeC10
     [] qC10
     ⟨rfl, rfl, rfl, fun r hr => by
       constructor
       · show envC3b.hashFile r = (if r == qC10 then none else envC3b.hashFile r)
         simp [hr]
       · show envC3b.readFile r =
           (if r == qC10 then some (str "changed notes") else envC3b.readFile r)
         simp [hr]⟩
     (by decide)⟩

/-- A generic mutual induction helper over `FileNode` and forests. -/
theorem fileNode_mutual_ind {m1 : FileNode → Prop} {m2 : List FileNode → Prop}
    (h0 : ∀ p d cs ch su, m2 cs → m1 ⟨p, d, cs, ch, su⟩)
    (h1 : m2 [])
    (h2 : ∀ c rest, m1 c → m2 rest → m2 (c :: rest)) :
    (∀ t, m1 t) ∧ (∀ l, m2 l) := by
  have ht : ∀ t, m1 t := fun t =>
    @FileNode.rec m1 m2 h0 h1 h2 t
  refine ⟨ht, ?_⟩
  intro l
  induction l with
  | nil => exact h1
  | cons c rest ih => exact h2 c rest (ht c) ih

theorem pureFp_isSome (hash : Str → Str) (content : FPath → Str)
    (t : FileNode) : (pureFp hash content t).isSome = pureSumm t := by
  cases t with
  | mk p d cs ch su =>
    unfold pureFp pureSumm
    cases d with
    | false =>
      by_cases hs : is_source_code_file ⟨p, false, cs, ch, su⟩ = true
      · simp [hs]
      · have : is_source_code_file ⟨p, false, cs, ch, su⟩ = false := by
          simpa using hs
        simp [this]
    | true =>
      by_cases hs : pureSummL cs = true
      · simp [hs]
      · have : pureSummL cs = false := by simpa using hs
        simp [this]

theorem pureFpL_eq_filterMap (hash : Str → Str) (content : FPath → Str)
    (cs cs1 : List FileNode) (h : FpRelL hash content cs cs1) :
    cs1.filterMap (fun c => c.content_hash) = pureFpL hash content cs := by
  induction cs generalizing cs1 with
  | nil =>
    unfold FpRelL at h
    subst h
    rfl
  | cons c rest ih =>
    unfold FpRelL at h
    obtain ⟨c1, l1, rfl, hrel, hrest⟩ := h
    have hch : c1.content_hash = pureFp hash content c := by
      cases c with
      | mk p d cc ch su => exact hrel.2.2.1
    rw [pureFpL, ← ih l1 hrest, List.filterMap_cons, hch]
    cases hfp : pureFp hash content c <;> simp

theorem FpRelL_summary (hash : Str → Str) (content : FPath → Str)
    (cs cs1 : List FileNode) (h : FpRelL hash content cs cs1) :
    ∀ c1 ∈ cs1, ∃ c ∈ cs, c1.path = c.path ∧ c1.is_directory = c.is_directory
      ∧ c1.summary.isSome = pureSumm c := by
  induction cs generalizing cs1 with
  | nil =>
    unfold FpRelL at h
    subst h
    intro c1 hc1
    exact absurd hc1 (List.not_mem_nil c1)
  | cons c rest ih =>
    unfold FpRelL at h
    obtain ⟨c1, l1, rfl, hrel, hrest⟩ := h
    intro u hu
    rcases List.mem_cons.mp hu with rfl | hu
    · refine ⟨c, List.mem_cons_self _ _, ?_⟩
      cases c with
      | mk p d cc ch su => exact ⟨hrel.1, hrel.2.1, hrel.2.2.2.1⟩
    · obtain ⟨cc, hcc, hp⟩ := ih l1 hrest u hu
      exact ⟨cc, List.mem_cons_of_mem _ hcc, hp⟩

theorem self_mem_allNodes (t : FileNode) : t ∈ allNodes t := by
  cases t with
  | mk p d cs ch su =>
    rw [allNodes]
    exact List.mem_cons_self _ _

theorem mem_allNodesL_of_mem {l : List FileNode} {c : FileNode} (h : c ∈ l) :
    c ∈ allNodesL l := by
  induction l with
  | nil => exact absurd h (List.not_mem_nil c)
  | cons a rest ih =>
    rw [allNodesL]
    rcases List.mem_cons.mp h with rfl | h
    · exact List.mem_append_left _ (self_mem_allNodes c)
    · exact List.mem_append_right _ (ih h)

theorem mem_allNodes_of_child {p : FPath} {d : Bool} {cs : List FileNode}
    {ch su : Option Str} {u : FileNode} (h : u ∈ allNodesL cs) :
    u ∈ allNodes ⟨p, d, cs, ch, su⟩ := by
  rw [allNodes]
  exact List.mem_cons_of_mem _ h

theorem collect_good (hash : Str → Str) (content : FPath → Str) (base : FPath) :
    ∀ (cs cs1 : List FileNode), FpRelL hash content cs cs1 →
      (∀ c1 ∈ cs1, base.isPrefixOf c1.path = true) →
      ∃ ls, collectChildSummaries base cs1 = .ok ls
        ∧ (ls.isEmpty = !pureSummL cs) := by
  intro cs
  induction cs with
  | nil =>
    intro cs1 h hpre
    unfold FpRelL at h
    subst h
    exact ⟨[], rfl, rfl⟩
  | cons c rest ih =>
    intro cs1 h hpre
    unfold FpRelL at h
    obtain ⟨c1, l1, rfl, hrel, hrest⟩ := h
    have hsum : c1.summary.isSome = pureSumm c := by
      cases c with
      | mk p d cc ch su => exact hrel.2.2.2.1
    obtain ⟨ls, hls, hempty⟩ := ih l1 hrest
      (fun u hu => hpre u (List.mem_cons_of_mem _ hu))
    cases hs : c1.summary with
    | none =>
      rw [hs] at hsum
      refine ⟨ls, ?_, ?_⟩
      · unfold collectChildSummaries
        rw [hs]
        exact hls
      · rw [hempty, pureSummL, ← hsum]
        simp
    | some s =>
      rw [hs] at hsum
      have hp : base.isPrefixOf c1.path = true :=
        hpre c1 (List.mem_cons_self _ _)
      cases hcol : collectChildSummaries base (c1 :: l1) with
      | error e =>
        exfalso
        simp only [collectChildSummaries, get_relative_path, hs, if_pos hp,
          hls] at hcol
        exact Except.noConfusion hcol
      | ok ls2 =>
        refine ⟨ls2, rfl, ?_⟩
        simp only [collectChildSummaries, get_relative_path, hs, if_pos hp,
          hls] at hcol
        injection hcol with h2
        rw [← h2, pureSummL, ← hsum]
        simp

theorem summarize_tree_dir (hash : Str → Str) (env : Env) (force : Bool)
    (base : FPath) (p : FPath) (cs : List FileNode) (ch su : Option Str)
    (cache : Cache) :
    summarize_tree hash env force base ⟨p, true, cs, ch, su⟩ cache =
      match summarize_children hash env force base cs cache with
      | .error e => .error e
      | .ok (cs1, c1) =>
        summarize_directory hash env force base ⟨p, true, cs1, ch, su⟩ c1 := rfl

theorem summarize_children_cons (hash : Str → Str) (env : Env) (force : Bool)
    (base : FPath) (n : FileNode) (rest : List FileNode) (cache : Cache) :
    summarize_children hash env force base (n :: rest) cache =
      match summarize_tree hash env force base n cache with
      | .error e => .error e
      | .ok (n1, cache1) =>
        match summarize_children hash env force base rest cache1 with
        | .error e => .error e
        | .ok (rest1, cache2) => .ok (n1 :: rest1, cache2) := rfl

theorem summarize_tree_good (hash : Str → Str) (content : FPath → Str)
    (env : Env) (force : Bool) (base : FPath)
    (hE : GoodEnv hash content env)
    (hblank : ∀ q, isBlank (content q) = false) :
    (∀ (t : FileNode) (cache : Cache),
      (∀ u ∈ allNodes t, base.isPrefixOf u.path = true) →
      (∀ u ∈ allNodes t, u.content_hash = none ∧ u.summary = none
        ∧ (u.is_directory = false → u.children = [])) →
      ∃ t1 c1, summarize_tree hash env force base t cache = .ok (t1, c1)
        ∧ FpRel hash content t t1)
    ∧ (∀ (l : List FileNode) (cache : Cache),
      (∀ u ∈ allNodesL l, base.isPrefixOf u.path = true) →
      (∀ u ∈ allNodesL l, u.content_hash = none ∧ u.summary = none
        ∧ (u.is_directory = false → u.children = [])) →
      ∃ l1 c1, summarize_children hash env force base l cache = .ok (l1, c1)
        ∧ FpRelL hash content l l1) := by
  obtain ⟨hHash, hRead, hGenF, hGenD⟩ := hE
  refine fileNode_mutual_ind ?_ ?_ ?_
  · intro p d cs ch su ihcs cache hpre hfresh
    obtain ⟨hch, hsu, hwf⟩ := hfresh _ (self_mem_allNodes ⟨p, d, cs, ch, su⟩)
    cases d with
    | false =>
      have hcs : cs = [] := hwf rfl
      subst hcs hch hsu
      have htf := @summarize_tree_file hash env force base
        ⟨p, false, [], none, none⟩ rfl cache
      by_cases hsrc : is_source_code_file ⟨p, false, [], none, none⟩ = true
      · have hp : base.isPrefixOf p = true := by
          simpa using hpre _ (self_mem_allNodes ⟨p, false, [], none, none⟩)
        cases hcache : (if force then none
            else get_cached_summary cache p (hash (content p))) with
        | some cached =>
          refine ⟨⟨p, false, [], some (hash (content p)), some cached⟩, cache,
            ?_, ?_⟩
          · rw [htf]
            simp only [summarize_file, hsrc, Bool.not_true, Bool.false_eq_true,
              if_false, hHash p, hcache]
          · exact ⟨rfl, rfl, by simp [pureFp, hsrc],
              by simp [pureSumm, hsrc], rfl⟩
        | none =>
          obtain ⟨s, hgs⟩ := Option.isSome_iff_exists.mp
            (hGenF (p.drop base.length) (content p))
          refine ⟨⟨p, false, [], some (hash (content p)), some s⟩,
            store_summary cache p (hash (content p)) s env.now false, ?_, ?_⟩
          · rw [htf]
            simp only [summarize_file, hsrc, Bool.not_true, Bool.false_eq_true,
              if_false, hHash p, hcache, hRead p, hblank p,
              get_relative_path, if_pos hp, hgs]
          · exact ⟨rfl, rfl, by simp [pureFp, hsrc],
              by simp [pureSumm, hsrc], rfl⟩
      · have hsrc' : is_source_code_file ⟨p, false, [], none, none⟩ = false := by
          simpa using hsrc
        refine ⟨⟨p, false, [], none, none⟩, cache, ?_, ?_⟩
        · rw [htf]
          simp only [summarize_file, hsrc', Bool.not_false, if_true]
        · exact ⟨rfl, rfl, by simp [pureFp, hsrc'],
            by simp [pureSumm, hsrc'], rfl⟩
    | true =>
      obtain ⟨cs1, c1, hrun, hrelL⟩ := ihcs cache
        (fun u hu => hpre u (mem_allNodes_of_child hu))
        (fun u hu => hfresh u (mem_allNodes_of_child hu))
      have hp : base.isPrefixOf p = true := by
        simpa using hpre _ (self_mem_allNodes ⟨p, true, cs, ch, su⟩)
      have hpre1 : ∀ u1 ∈ cs1, base.isPrefixOf u1.path = true := by
        intro u1 hu1
        obtain ⟨c, hc, hpath, -, -⟩ :=
          FpRelL_summary hash content cs cs1 hrelL u1 hu1
        rw [hpath]
        exact hpre _ (mem_allNodes_of_child (mem_allNodesL_of_mem hc))
      obtain ⟨ls, hls, hempty⟩ :=
        collect_good hash content base cs cs1 hrelL hpre1
      subst hch hsu
      by_cases hsml : pureSummL cs = true
      · have hlsne : ls.isEmpty = false := by rw [hempty, hsml]; rfl
        have hfm : cs1.filterMap (fun c => c.content_hash) =
            pureFpL hash content cs :=
          pureFpL_eq_filterMap hash content cs cs1 hrelL
        cases hcache2 : (if force then none
            else get_cached_summary c1 p
              (compute_directory_hash hash (pureFpL hash content cs))) with
        | some cached =>
          refine ⟨⟨p, true, cs1,
            some (compute_directory_hash hash (pureFpL hash content cs)),
            some cached⟩, c1, ?_, ?_⟩
          · rw [summarize_tree_dir, hrun]
            simp only [summarize_directory, get_relative_path, if_pos hp, hls,
              hlsne, Bool.false_eq_true, if_false, hfm, hcache2]
          · exact ⟨rfl, rfl, by simp [pureFp, hsml],
              by simp [pureSumm, hsml], hrelL⟩
        | none =>
          obtain ⟨s, hgs⟩ := Option.isSome_iff_exists.mp
            (hGenD (fileNameOr (str "project root") (p.drop base.length)) ls)
          refine ⟨⟨p, true, cs1,
            some (compute_directory_hash hash (pureFpL hash content cs)),
            some s⟩,
            store_summary c1 p
              (compute_directory_hash hash (pureFpL hash content cs)) s
              env.now true, ?_, ?_⟩
          · rw [summarize_tree_dir, hrun]
            simp only [summarize_directory, get_relative_path, if_pos hp, hls,
              hlsne, Bool.false_eq_true, if_false, hfm, hcache2, hgs]
          · exact ⟨rfl, rfl, by simp [pureFp, hsml],
              by simp [pureSumm, hsml], hrelL⟩
      · have hsml' : pureSummL cs = false := by simpa using hsml
        have hlse : ls.isEmpty = true := by rw [hempty, hsml']; rfl
        refine ⟨⟨p, true, cs1, none, none⟩, c1, ?_, ?_⟩
        · rw [summarize_tree_dir, hrun]
          simp only [summarize_directory, get_relative_path, if_pos hp, hls,
            hlse, if_true]
        · exact ⟨rfl, rfl, by simp [pureFp, hsml'],
            by simp [pureSumm, hsml'], hrelL⟩
  · intro cache hpre hfresh
    exact ⟨[], cache, rfl, rfl⟩
  · intro c rest ihc ihrest cache hpre hfresh
    obtain ⟨c1, cache1, hrun1, hrel1⟩ := ihc cache
      (fun u hu => hpre u (by
        rw [allNodesL]
        exact List.mem_append_left _ hu))
      (fun u hu => hfresh u (by
        rw [allNodesL]
        exact List.mem_append_left _ hu))
    obtain ⟨l1, cache2, hrun2, hrelL⟩ := ihrest cache1
      (fun u hu => hpre u (by
        rw [allNodesL]
        exact List.mem_append_right _ hu))
      (fun u hu => hfresh u (by
        rw [allNodesL]
        exact List.mem_append_right _ hu))
    refine ⟨c1 :: l1, cache2, ?_, ?_⟩
    · rw [summarize_children_cons, hrun1]
      simp only [hrun2]
    · exact ⟨c1, l1, rfl, hrel1, hrelL⟩

theorem pureFp_frame (hash : Str → Str) (content content' : FPath → Str) :
    (∀ t : FileNode, (∀ q ∈ sourcePaths t, content q = content' q) →
      pureFp hash content t = pureFp hash content' t)
    ∧ (∀ l : List FileNode, (∀ q ∈ sourcePathsL l, content q = content' q) →
      pureFpL hash content l = pureFpL hash content' l) := by
  refine fileNode_mutual_ind ?_ ?_ ?_
  · intro p d cs ch su ih hagree
    cases d with
    | false =>
      by_cases hsrc : is_source_code_file ⟨p, false, cs, ch, su⟩ = true
      · have hmem : p ∈ sourcePaths ⟨p, false, cs, ch, su⟩ := by
          rw [sourcePaths, if_pos hsrc]
          exact List.mem_append_left _ (List.mem_singleton.mpr rfl)
        simp [pureFp, hsrc, hagree p hmem]
      · have hsrc' : is_source_code_file ⟨p, false, cs, ch, su⟩ = false := by
          simpa using hsrc
        simp [pureFp, hsrc']
    | true =>
      have hsub : ∀ q ∈ sourcePathsL cs, content q = content' q := by
        intro q hq
        refine hagree q ?_
        rw [sourcePaths]
        exact List.mem_append_right _ hq
      simp [pureFp, ih hsub]
  · intro hagree
    rfl
  · intro c rest ihc ihrest hagree
    have h1 : ∀ q ∈ sourcePaths c, content q = content' q := by
      intro q hq
      refine hagree q ?_
      rw [sourcePathsL]
      exact List.mem_append_left _ hq
    have h2 : ∀ q ∈ sourcePathsL rest, content q = content' q := by
      intro q hq
      refine hagree q ?_
      rw [sourcePathsL]
      exact List.mem_append_right _ hq
    rw [pureFpL, pureFpL, ihc h1, ihrest h2]

theorem source_path_mem :
    ∀ (p : List Nat) (t leaf : FileNode), subtreeAt t p = some leaf →
      is_source_code_file leaf = true → leaf.path ∈ sourcePaths t := by
  intro p
  induction p with
  | nil =>
    intro t leaf h hsrc
    injection h with h1
    subst h1
    cases t with
    | mk q d cs ch su =>
      rw [sourcePaths, if_pos hsrc]
      exact List.mem_append_left _ (List.mem_singleton.mpr rfl)
  | cons i rest ih =>
    intro t leaf h hsrc
    cases t with
    | mk q d cs ch su =>
      rw [subtreeAt] at h
      cases hg : cs.get? i with
      | none => rw [hg] at h; exact Option.noConfusion h
      | some c =>
        rw [hg] at h
        have hc : c ∈ cs := List.get?_mem hg
        have hmem := ih c leaf h hsrc
        rw [sourcePaths]
        refine List.mem_append_right _ ?_
        clear hg h
        induction cs with
        | nil => exact absurd hc (List.not_mem_nil c)
        | cons a as ihas =>
          rw [sourcePathsL]
          rcases List.mem_cons.mp hc with rfl | hc2
          · exact List.mem_append_left _ hmem
          · exact List.mem_append_right _ (ihas hc2)

theorem sourcePaths_child_sublist {c : FileNode} {cs : List FileNode}
    (hc : c ∈ cs) : (sourcePaths c).Sublist (sourcePathsL cs) := by
  induction cs with
  | nil => exact absurd hc (List.not_mem_nil c)
  | cons a as ih =>
    rw [sourcePathsL]
    rcases List.mem_cons.mp hc with rfl | hc2
    · exact List.sublist_append_left _ _
    · exact (ih hc2).trans (List.sublist_append_right _ _)

theorem sourcePaths_subtree_sublist :
    ∀ (p : List Nat) (t u : FileNode), subtreeAt t p = some u →
      (sourcePaths u).Sublist (sourcePaths t) := by
  intro p
  induction p with
  | nil =>
    intro t u h
    injection h with h1
    subst h1
    exact List.Sublist.refl _
  | cons i rest ih =>
    intro t u h
    cases t with
    | mk q d cs ch su =>
      rw [subtreeAt] at h
      cases hg : cs.get? i with
      | none => rw [hg] at h; exact Option.noConfusion h
      | some c =>
        rw [hg] at h
        have hc : c ∈ cs := List.get?_mem hg
        refine ((ih c u h).trans (sourcePaths_child_sublist hc)).trans ?_
        rw [sourcePaths]
        exact List.sublist_append_right _ _

theorem allNodes_subtree_subset :
    ∀ (p : List Nat) (t u : FileNode), subtreeAt t p = some u →
      ∀ v ∈ allNodes u, v ∈ allNodes t := by
  intro p
  induction p with
  | nil =>
    intro t u h
    injection h with h1
    subst h1
    exact fun v hv => hv
  | cons i rest ih =>
    intro t u h v hv
    cases t with
    | mk q d cs ch su =>
      rw [subtreeAt] at h
      cases hg : cs.get? i with
      | none => rw [hg] at h; exact Option.noConfusion h
      | some c =>
        rw [hg] at h
        have hc : c ∈ cs := List.get?_mem hg
        have hv2 := ih c u h v hv
        refine mem_allNodes_of_child ?_
        clear hg h hv
        induction cs with
        | nil => exact absurd hc (List.not_mem_nil c)
        | cons a as ihas =>
          rw [allNodesL]
          rcases List.mem_cons.mp hc with rfl | hc2
          · exact List.mem_append_left _ hv2
          · exact List.mem_append_right _ (ihas hc2)

theorem list_decomp_at {α : Type} (l : List α) (n : Nat) (a : α)
    (h : l.get? n = some a) : l = l.take n ++ a :: l.drop (n+1) := by
  have hn : n < l.length := by
    by_contra hc
    rw [List.get?_eq_none.mpr (by omega)] at h
    exact Option.noConfusion h
  have h2 : l.get? n = some (l.get ⟨n, hn⟩) := List.get?_eq_get hn
  rw [h2] at h
  injection h with h1
  have h3 := List.getElem_cons_drop l n hn
  rw [show l[n] = l.get ⟨n, hn⟩ from rfl, h1] at h3
  conv_lhs => rw [← List.take_append_drop n l]
  rw [← h3]

theorem sourcePathsL_append (l1 l2 : List FileNode) :
    sourcePathsL (l1 ++ l2) = sourcePathsL l1 ++ sourcePathsL l2 := by
  induction l1 with
  | nil => rfl
  | cons c rest ih =>
    rw [List.cons_append, sourcePathsL, sourcePathsL, ih, List.append_assoc]

theorem pureFpL_append (hash : Str → Str) (content : FPath → Str)
    (l1 l2 : List FileNode) :
    pureFpL hash content (l1 ++ l2) =
      pureFpL hash content l1 ++ pureFpL hash content l2 := by
  induction l1 with
  | nil => rfl
  | cons c rest ih =>
    rw [List.cons_append, pureFpL, pureFpL, ih, List.append_assoc]

theorem pureSummL_of_mem {cs : List FileNode} {c : FileNode} (hc : c ∈ cs)
    (h : pureSumm c = true) : pureSummL cs = true := by
  induction cs with
  | nil => exact absurd hc (List.not_mem_nil c)
  | cons a rest ih =>
    rw [pureSummL]
    rcases List.mem_cons.mp hc with rfl | hc2
    · rw [h, Bool.true_or]
    · rw [ih hc2, Bool.or_true]

theorem pureFp_shape (hash : Str → Str) (content : FPath → Str)
    (t : FileNode) (h : Str) (hfp : pureFp hash content t = some h) :
    ∃ y, h = hash y := by
  cases t with
  | mk p d cs ch su =>
    rw [pureFp] at hfp
    cases d with
    | false =>
      by_cases hsrc : is_source_code_file ⟨p, false, cs, ch, su⟩ = true
      · rw [if_neg (by simp), if_pos hsrc] at hfp
        injection hfp with h1
        exact ⟨content p, h1.symm⟩
      · rw [if_neg (by simp), if_neg hsrc] at hfp
        exact Option.noConfusion hfp
    | true =>
      by_cases hsm : pureSummL cs = true
      · rw [if_pos rfl, if_pos hsm] at hfp
        injection hfp with h1
        exact ⟨_, h1.symm⟩
      · rw [if_pos rfl, if_neg hsm] at hfp
        exact Option.noConfusion hfp

theorem pureFpL_barfree (hash : Str → Str) (content : FPath → Str)
    (hbar : ∀ s, '|' ∉ hash s) (l : List FileNode) :
    ∀ x ∈ pureFpL hash content l, '|' ∉ x := by
  induction l with
  | nil => intro x hx; exact absurd hx (List.not_mem_nil x)
  | cons c rest ih =>
    intro x hx
    rw [pureFpL] at hx
    rcases List.mem_append.mp hx with hx1 | hx2
    · cases hfp : pureFp hash content c with
      | none => rw [hfp] at hx1; exact absurd hx1 (List.not_mem_nil x)
      | some h =>
        rw [hfp] at hx1
        obtain ⟨y, rfl⟩ := pureFp_shape hash content c h hfp
        rcases List.mem_singleton.mp hx1 with rfl
        exact hbar y
    · exact ih x hx2

theorem disjoint_blocks_lt {cs : List FileNode}
    (hnd : (sourcePathsL cs).Nodup) {i j : Nat} (hij : i < j)
    {ci cj : FileNode} (hgi : cs.get? i = some ci) (hgj : cs.get? j = some cj)
    (x : FPath) (hxi : x ∈ sourcePaths ci) (hxj : x ∈ sourcePaths cj) :
    False := by
  have hdec := list_decomp_at cs i ci hgi
  have hgj2 : (cs.drop (i+1)).get? (j - (i+1)) = some cj := by
    rw [List.get?_drop]
    rw [show i + 1 + (j - (i+1)) = j by omega]
    exact hgj
  have hcj : cj ∈ cs.drop (i+1) := List.get?_mem hgj2
  rw [hdec, sourcePathsL_append, sourcePathsL] at hnd
  obtain ⟨-, hnd2, -⟩ := List.nodup_append.mp hnd
  obtain ⟨-, -, hdisj⟩ := List.nodup_append.mp hnd2
  refine hdisj hxi ?_
  exact (sourcePaths_child_sublist hcj).subset hxj

theorem disjoint_blocks {cs : List FileNode}
    (hnd : (sourcePathsL cs).Nodup) {i j : Nat} (hij : i ≠ j)
    {ci cj : FileNode} (hgi : cs.get? i = some ci) (hgj : cs.get? j = some cj)
    (x : FPath) (hxi : x ∈ sourcePaths ci) (hxj : x ∈ sourcePaths cj) :
    False := by
  rcases Nat.lt_or_ge i j with h | h
  · exact disjoint_blocks_lt hnd h hgi hgj x hxi hxj
  · have h2 : j < i := by omega
    exact disjoint_blocks_lt hnd h2 hgj hgi x hxj hxi

theorem mem_allNodesL_trans {u c : FileNode} {cs : List FileNode}
    (hu : u ∈ allNodes c) (hc : c ∈ cs) : u ∈ allNodesL cs := by
  induction cs with
  | nil => exact absurd hc (List.not_mem_nil c)
  | cons a as ih =>
    rw [allNodesL]
    rcases List.mem_cons.mp hc with rfl | hc2
    · exact List.mem_append_left _ hu
    · exact List.mem_append_right _ (ih hc2)

theorem not_mem_source_unrelated :
    ∀ (r p : List Nat) (t leaf u : FileNode),
      subtreeAt t p = some leaf → subtreeAt t r = some u →
      is_source_code_file leaf = true →
      (∀ v ∈ allNodes t, v.is_directory = false → v.children = []) →
      (sourcePaths t).Nodup →
      ¬(r <+: p) → leaf.path ∉ sourcePaths u := by
  intro r
  induction r with
  | nil =>
    intro p t leaf u hp hr hsrc hwf hnd hpre
    exact absurd List.nil_prefix hpre
  | cons i r' ih =>
    intro p t leaf u hp hr hsrc hwf hnd hpre
    cases t with
    | mk q d cs ch su =>
      cases p with
      | nil =>
        injection hp with hp1
        subst hp1
        have hd : d = false := by
          have := is_source_not_dir hsrc
          simpa using this
        subst hd
        have hcs : cs = [] :=
          hwf _ (self_mem_allNodes ⟨q, false, cs, ch, su⟩) rfl
        simp only at hcs
        subst hcs
        rw [subtreeAt] at hr
        simp at hr
      | cons j p' =>
        rw [subtreeAt] at hp hr
        cases hgj : cs.get? j with
        | none => rw [hgj] at hp; exact Option.noConfusion hp
        | some cj =>
          rw [hgj] at hp
          cases hgi : cs.get? i with
          | none => rw [hgi] at hr; exact Option.noConfusion hr
          | some ci =>
            rw [hgi] at hr
            have hndL : (sourcePathsL cs).Nodup := by
              rw [sourcePaths] at hnd
              exact ((List.sublist_append_right _ _).nodup hnd)
            by_cases hij : i = j
            · subst hij
              rw [hgi] at hgj
              injection hgj with hgj1
              subst hgj1
              have hpre' : ¬(r' <+: p') := by
                intro hc
                exact hpre (List.cons_prefix_cons.mpr ⟨rfl, hc⟩)
              refine ih p' ci leaf u hp hr hsrc ?_ ?_ hpre'
              · intro v hv
                exact hwf v (mem_allNodes_of_child
                  (mem_allNodesL_trans hv (List.get?_mem hgi)))
              · exact (sourcePaths_child_sublist (List.get?_mem hgi)).nodup hndL
            · have hmem : leaf.path ∈ sourcePaths cj :=
                source_path_mem p' cj leaf hp hsrc
              intro hmu
              have hmci : leaf.path ∈ sourcePaths ci :=
                (sourcePaths_subtree_sublist r' ci u hr).subset hmu
              exact disjoint_blocks hndL hij hgi hgj leaf.path hmci hmem

theorem pure_merkle (hash : Str → Str) (hinj : Function.Injective hash)
    (hbar : ∀ s, '|' ∉ hash s) (content content' : FPath → Str) :
    ∀ (p : List Nat) (t leaf : FileNode),
      subtreeAt t p = some leaf →
      is_source_code_file leaf = true →
      (∀ v ∈ allNodes t, v.is_directory = false → v.children = []) →
      (sourcePaths t).Nodup →
      (∀ q, q ≠ leaf.path → content' q = content q) →
      content' leaf.path ≠ content leaf.path →
      ∃ h1 h2, pureFp hash content t = some h1
        ∧ pureFp hash content' t = some h2 ∧ h1 ≠ h2 := by
  intro p
  induction p with
  | nil =>
    intro t leaf hp hsrc hwf hnd hagree hdiff
    injection hp with hp1
    subst hp1
    cases t with
    | mk q d cs ch su =>
      have hd : d = false := by
        have := is_source_not_dir hsrc
        simpa using this
      subst hd
      refine ⟨hash (content q), hash (content' q), ?_, ?_, ?_⟩
      · rw [pureFp, if_neg (by simp), if_pos hsrc]
      · rw [pureFp, if_neg (by simp), if_pos hsrc]
      · intro hc
        exact hdiff (hinj hc.symm)
  | cons j p' ih =>
    intro t leaf hp hsrc hwf hnd hagree hdiff
    cases t with
    | mk q d cs ch su =>
      rw [subtreeAt] at hp
      cases hgj : cs.get? j with
      | none => rw [hgj] at hp; exact Option.noConfusion hp
      | some cj =>
        rw [hgj] at hp
        have hd : d = true := by
          by_contra hc
          have hd0 : d = false := by simpa using hc
          subst hd0
          have hcs : cs = [] :=
            hwf _ (self_mem_allNodes ⟨q, false, cs, ch, su⟩) rfl
          simp only at hcs
          subst hcs
          simp at hgj
        subst hd
        have hcj : cj ∈ cs := List.get?_mem hgj
        have hndL : (sourcePathsL cs).Nodup := by
          rw [sourcePaths] at hnd
          exact ((List.sublist_append_right _ _).nodup hnd)
        obtain ⟨h1, h2, hfp1, hfp2, hne⟩ := ih cj leaf hp hsrc
          (fun v hv => hwf v (mem_allNodes_of_child (mem_allNodesL_trans hv hcj)))
          ((sourcePaths_child_sublist hcj).nodup hndL) hagree hdiff
      -- the directory owns a fingerprint in both runs
        have hsm : pureSummL cs = true := by
          refine pureSummL_of_mem hcj ?_
          rw [← pureFp_isSome hash content cj, hfp1]
          rfl
      -- decompose the children fingerprints around position j
        have hdec := list_decomp_at cs j cj hgj
        have hmem : leaf.path ∈ sourcePaths cj :=
          source_path_mem p' cj leaf hp hsrc
        have hnotake : leaf.path ∉ sourcePathsL (cs.take j) := by
          intro hc
          rw [hdec, sourcePathsL_append, sourcePathsL] at hndL
          obtain ⟨-, -, hdisj⟩ := List.nodup_append.mp hndL
          exact hdisj hc (List.mem_append_left _ hmem)
        have hnodrop : leaf.path ∉ sourcePathsL (cs.drop (j+1)) := by
          intro hc
          rw [hdec, sourcePathsL_append, sourcePathsL] at hndL
          obtain ⟨-, hnd2, -⟩ := List.nodup_append.mp hndL
          obtain ⟨-, -, hdisj⟩ := List.nodup_append.mp hnd2
          exact hdisj hmem hc
        have htake : pureFpL hash content (cs.take j) =
            pureFpL hash content' (cs.take j) := by
          refine (pureFp_frame hash content content').2 (cs.take j) ?_
          intro x hx
          refine (hagree x ?_).symm
          intro hxeq
          subst hxeq
          exact hnotake (by
            have hsub : (sourcePathsL (cs.take j)).Sublist (sourcePathsL cs) := by
              conv_rhs => rw [hdec]
              rw [sourcePathsL_append]
              exact List.sublist_append_left _ _
            exact hx)
        have hdrop : pureFpL hash content (cs.drop (j+1)) =
            pureFpL hash content' (cs.drop (j+1)) := by
          refine (pureFp_frame hash content content').2 (cs.drop (j+1)) ?_
          intro x hx
          refine (hagree x ?_).symm
          intro hxeq
          subst hxeq
          exact hnodrop hx
        have hL1 : pureFpL hash content cs =
            pureFpL hash content (cs.take j) ++ h1 ::
              pureFpL hash content (cs.drop (j+1)) := by
          conv_lhs => rw [hdec]
          rw [pureFpL_append, pureFpL, hfp1]
          rfl
        have hL2 : pureFpL hash content' cs =
            pureFpL hash content (cs.take j) ++ h2 ::
              pureFpL hash content (cs.drop (j+1)) := by
          conv_lhs => rw [hdec]
          rw [pureFpL_append, pureFpL, hfp2, htake, hdrop]
          rfl
        refine ⟨compute_directory_hash hash (pureFpL hash content cs),
          compute_directory_hash hash (pureFpL hash content' cs), ?_, ?_, ?_⟩
        · rw [pureFp, if_pos rfl, if_pos hsm]
        · rw [pureFp, if_pos rfl, if_pos hsm]
        · intro hc
          have hj := hinj hc
          have hlists := intercalate_bar_inj
            (pureFpL_barfree hash content hbar cs)
            (pureFpL_barfree hash content' hbar cs)
            (by rw [hL1, hL2]; simp) hj
          rw [hL1, hL2] at hlists
          have := List.append_cancel_left hlists
          injection this with h3
          exact hne h3

theorem FpRelL_get (hash : Str → Str) (content : FPath → Str) :
    ∀ (cs l : List FileNode), FpRelL hash content cs l →
      ∀ i, (cs.get? i = none ∧ l.get? i = none)
        ∨ ∃ c c1, cs.get? i = some c ∧ l.get? i = some c1
            ∧ FpRel hash content c c1 := by
  intro cs
  induction cs with
  | nil =>
    intro l h i
    unfold FpRelL at h
    subst h
    left
    exact ⟨rfl, rfl⟩
  | cons c rest ih =>
    intro l h i
    unfold FpRelL at h
    obtain ⟨c1, l1, rfl, hrel, hrest⟩ := h
    cases i with
    | zero => exact Or.inr ⟨c, c1, rfl, rfl, hrel⟩
    | succ n => exact ih l1 hrest n

theorem FpRel_subtreeAt (hash : Str → Str) (content : FPath → Str) :
    ∀ (pos : List Nat) (t t1 : FileNode), FpRel hash content t t1 →
      (subtreeAt t pos = none ∧ subtreeAt t1 pos = none)
      ∨ ∃ u u1, subtreeAt t pos = some u ∧ subtreeAt t1 pos = some u1
          ∧ FpRel hash content u u1 := by
  intro pos
  induction pos with
  | nil =>
    intro t t1 h
    exact Or.inr ⟨t, t1, rfl, rfl, h⟩
  | cons i rest ih =>
    intro t t1 h
    cases t with
    | mk p d cs ch su =>
      have hrelL : FpRelL hash content cs t1.children := by
        unfold FpRel at h
        exact h.2.2.2.2
      rcases FpRelL_get hash content cs t1.children hrelL i with
        ⟨hn1, hn2⟩ | ⟨c, c1, hs1, hs2, hrel⟩
      · left
        constructor
        · rw [subtreeAt]
          simp only [hn1]
        · cases t1 with
          | mk p1 d1 cs1 ch1 su1 =>
            rw [subtreeAt]
            simp only at hn2
            simp only [hn2]
      · rcases ih c c1 hrel with ⟨hm1, hm2⟩ | ⟨u, u1, hu1, hu2, hrelu⟩
        · left
          constructor
          · rw [subtreeAt]
            simp only [hs1, hm1]
          · cases t1 with
            | mk p1 d1 cs1 ch1 su1 =>
              rw [subtreeAt]
              simp only at hs2
              simp only [hs2, hm2]
        · right
          refine ⟨u, u1, ?_, ?_⟩
          · rw [subtreeAt]
            simp only [hs1]
            exact hu1
          · constructor
            · cases t1 with
              | mk p1 d1 cs1 ch1 su1 =>
                rw [subtreeAt]
                simp only at hs2
                simp only [hs2]
                exact hu2
            · exact hrelu

theorem subtreeAt_append :
    ∀ (q rest : List Nat) (t : FileNode),
      subtreeAt t (q ++ rest) = (subtreeAt t q).bind (fun u => subtreeAt u rest) := by
  intro q
  induction q with
  | nil => intro rest t; rfl
  | cons i q' ih =>
    intro rest t
    cases t with
    | mk p d cs ch su =>
      rw [List.cons_append, subtreeAt, subtreeAt]
      cases hg : cs.get? i with
      | none => rfl
      | some c => exact ih rest c

theorem FpRel_content_hash (hash : Str → Str) (content : FPath → Str)
    {u u1 : FileNode} (h : FpRel hash content u u1) :
    u1.content_hash = pureFp hash content u := by
  cases u with
  | mk p d cs ch su => exact h.2.2.1

/-- C1: Merkle propagation.  Run the summarizer twice over the same
scanner-fresh tree, under good oracles for two content assignments that
differ exactly at one source-file leaf of the tree (and with a collision-free
digest whose output avoids the join delimiter).  Both runs succeed; the
changed leaf's fingerprint, its parent directory's and every ancestor's up to
the root differ between the runs (all present), while the fingerprint at
every position not on the ancestor chain — in particular every unrelated
sibling subtree — is unchanged.  Directory fingerprints are
`compute_directory_hash` over the ordered child fingerprints throughout
(`summarize_tree_good`/`FpRel`). -/
theorem C1_merkle_propagation (hash : Str → Str)
    (hinj : Function.Injective hash) (hbar : ∀ s, '|' ∉ hash s)
    (content content' : FPath → Str) (env env' : Env) (force force' : Bool)
    (base : FPath) (t : FileNode) (cache cache' : Cache)
    (p : List Nat) (leaf : FileNode)
    (hE : GoodEnv hash content env) (hE' : GoodEnv hash content' env')
    (hblank : ∀ q, isBlank (content q) = false)
    (hblank' : ∀ q, isBlank (content' q) = false)
    (hbase : ∀ u ∈ allNodes t, base.isPrefixOf u.path = true)
    (hfresh : ∀ u ∈ allNodes t, u.content_hash = none ∧ u.summary = none
      ∧ (u.is_directory = false → u.children = []))
    (hpos : subtreeAt t p = some leaf)
    (hsrc : is_source_code_file leaf = true)
    (hnodup : (sourcePaths t).Nodup)
    (hagree : ∀ q, q ≠ leaf.path → content' q = content q)
    (hdiff : content' leaf.path ≠ content leaf.path) :
    ∃ root1 c1 root2 c2,
      summarize_tree hash env force base t cache = .ok (root1, c1)
      ∧ summarize_tree hash env' force' base t cache' = .ok (root2, c2)
      ∧ (∀ q, q <+: p →
          ∃ h1 h2, fpAt root1 q = some h1 ∧ fpAt root2 q = some h2 ∧ h1 ≠ h2)
      ∧ (∀ r, ¬(r <+: p) → fpAt root1 r = fpAt root2 r) := by
  have hwf : ∀ v ∈ allNodes t, v.is_directory = false → v.children = [] :=
    fun v hv => (hfresh v hv).2.2
  obtain ⟨root1, cout1, hrun1, hrel1⟩ :=
    (summarize_tree_good hash content env force base hE hblank).1 t cache
      hbase hfresh
  obtain ⟨root2, cout2, hrun2, hrel2⟩ :=
    (summarize_tree_good hash content' env' force' base hE' hblank').1 t cache'
      hbase hfresh
  refine ⟨root1, cout1, root2, cout2, hrun1, hrun2, ?_, ?_⟩
  · intro q hqp
    obtain ⟨rest, rfl⟩ := hqp
    have hq0 := subtreeAt_append q rest t
    rw [hpos] at hq0
    cases hq : subtreeAt t q with
    | none =>
      rw [hq] at hq0
      exact Option.noConfusion hq0
    | some uq =>
      rw [hq] at hq0
      have hsub : subtreeAt uq rest = some leaf := hq0.symm
      have hwfq : ∀ v ∈ allNodes uq, v.is_directory = false → v.children = [] :=
        fun v hv => hwf v (allNodes_subtree_subset q t uq hq v hv)
      have hndq : (sourcePaths uq).Nodup :=
        (sourcePaths_subtree_sublist q t uq hq).nodup hnodup
      obtain ⟨h1, h2, hfp1, hfp2, hne⟩ :=
        pure_merkle hash hinj hbar content content' rest uq leaf hsub hsrc
          hwfq hndq hagree hdiff
      refine ⟨h1, h2, ?_, ?_, hne⟩
      · rcases FpRel_subtreeAt hash content q t root1 hrel1 with
          ⟨hn1, -⟩ | ⟨u, u1, hu, hu1, hrelu⟩
        · rw [hq] at hn1
          exact Option.noConfusion hn1
        · rw [hq] at hu
          injection hu with hu'
          subst hu'
          rw [fpAt, hu1]
          show u1.content_hash = some h1
          rw [FpRel_content_hash hash content hrelu, hfp1]
      · rcases FpRel_subtreeAt hash content' q t root2 hrel2 with
          ⟨hn2, -⟩ | ⟨v, v1, hv, hv1, hrelv⟩
        · rw [hq] at hn2
          exact Option.noConfusion hn2
        · rw [hq] at hv
          injection hv with hv'
          subst hv'
          rw [fpAt, hv1]
          show v1.content_hash = some h2
          rw [FpRel_content_hash hash content' hrelv, hfp2]
  · intro r hnr
    cases hru : subtreeAt t r with
    | none =>
      rcases FpRel_subtreeAt hash content r t root1 hrel1 with
        ⟨-, hn1⟩ | ⟨u, u1, hu, -, -⟩
      · rcases FpRel_subtreeAt hash content' r t root2 hrel2 with
          ⟨-, hn2⟩ | ⟨v, v1, hv, -, -⟩
        · rw [fpAt, hn1, fpAt, hn2]
        · rw [hru] at hv
          exact Option.noConfusion hv
      · rw [hru] at hu
        exact Option.noConfusion hu
    | some ur =>
      have hnotmem : leaf.path ∉ sourcePaths ur :=
        not_mem_source_unrelated r p t leaf ur hpos hru hsrc hwf hnodup hnr
      have hframe : pureFp hash content ur = pureFp hash content' ur := by
        refine (pureFp_frame hash content content').1 ur ?_
        intro x hx
        refine (hagree x ?_).symm
        intro hxeq
        subst hxeq
        exact hnotmem hx
      rcases FpRel_subtreeAt hash content r t root1 hrel1 with
        ⟨hn1, -⟩ | ⟨u, u1, hu, hu1, hrelu⟩
      · rw [hru] at hn1
        exact Option.noConfusion hn1
      · rw [hru] at hu
        injection hu with hu'
        subst hu'
        rcases FpRel_subtreeAt hash content' r t root2 hrel2 with
          ⟨hn2, -⟩ | ⟨v, v1, hv, hv1, hrelv⟩
        · rw [hru] at hn2
          exact Option.noConfusion hn2
        · rw [hru] at hv
          injection hv with hv'
          subst hv'
          rw [fpAt, hu1, fpAt, hv1]
          show u1.content_hash = v1.content_hash
          rw [FpRel_content_hash hash content hrelu,
            FpRel_content_hash hash content' hrelv, hframe]

theorem C1_merkle_propagation_witness :
    ∃ root1 c1 root2 c2,
      summarize_tree hexEncode envW false [str "b"] treeW [] = .ok (root1, c1)
      ∧ summarize_tree hexEncode envW2 false [str "b"] treeW [] = .ok (root2, c2)
      ∧ (∀ q, q <+: [0, 0] →
          ∃ h1 h2, fpAt root1 q = some h1 ∧ fpAt root2 q = some h2 ∧ h1 ≠ h2)
      ∧ (∀ r, ¬(r <+: [0, 0]) → fpAt root1 r = fpAt root2 r) :=
  C1_merkle_propagation hexEncode hexEncode_injective bar_not_mem_hexEncode
    contentW contentW2 envW envW2 false false [str "b"] treeW [] []
    [0, 0] leafW
    ⟨fun _ => rfl, fun _ => rfl, fun _ _ => rfl, fun _ _ => rfl⟩
    ⟨fun _ => rfl, fun _ => rfl, fun _ _ => rfl, fun _ _ => rfl⟩
    (fun _ => rfl)
    (fun q => by unfold contentW2; split <;> exact rfl)
    (by decide)
    (by
      intro u hu
      simp only [treeW, leafW, allNodes, allNodesL, List.mem_cons,
        List.not_mem_nil, or_false, List.append_nil, List.mem_append] at hu
      rcases hu with rfl | (rfl | rfl) | rfl <;>
        refine ⟨rfl, rfl, fun h => ?_⟩ <;>
        first
        | rfl
        | exact absurd h (by decide))
    rfl
    rfl
    (by decide)
    (fun q hq => by
      unfold contentW2
      rw [if_neg (by simpa using hq)])
    (by decide)
